import Mathlib

/-!
Verification of `onenote_markdown.py` (OneNote → Markdown converter).

Shallow embedding: Python strings are modelled as `List Char`; pure string
manipulation functions are translated directly from the source; stateful code
(the per-page image counter, the pagination loop, the tree builder loop) is
modelled by explicit state passing.  Network and filesystem effects are
abstracted as explicit function parameters / result values.
-/

namespace OneNote

/-! ### Python string primitives -/

/-- Characters removed by the `[\x00-\x1f\x7f-\x9f]` regex in both sanitizers
(the Unicode `Cc` control characters). -/
def isCtl (c : Char) : Bool := c.toNat ≤ 0x1f || (0x7f ≤ c.toNat && c.toNat ≤ 0x9f)

/-- Python `str.lower`, restricted to ASCII (the only case-bearing characters
that can survive the `[^a-z0-9.-]` replacement in `sanitize_image_filename`). -/
def pyLower (c : Char) : Char :=
  if 65 ≤ c.toNat ∧ c.toNat ≤ 90 then Char.ofNat (c.toNat + 32) else c

/-- Replacement of maximal runs of the character `c` by a single `c`:
the effect of Python `re.sub(r'c+', 'c', s)`. -/
def collapseRuns (c : Char) : List Char → List Char
  | [] => []
  | [a] => [a]
  | a :: b :: rest =>
    if a = c ∧ b = c then collapseRuns c (b :: rest)
    else a :: collapseRuns c (b :: rest)

/-- Remove elements satisfying `p` from both ends of a list (front first,
then back) — the shape shared by Python `str.strip` and the blank-line
trimming loops of `convert_page_to_markdown`. -/
def dropEnds {α : Type} (p : α → Bool) (l : List α) : List α :=
  ((l.dropWhile p).reverse.dropWhile p).reverse

/-- Python `str.strip(chars)`: remove characters of `set` from both ends. -/
def stripChars (set : List Char) (l : List Char) : List Char :=
  dropEnds (· ∈ set) l

/-- The fallback filename the sanitizers return for empty input/output. -/
def untitled : List Char := "untitled".data

/-! ### `sanitize_filename` (lines 280-306 of the source) -/

/-- `filename.replace('/', '-').replace('\\', '-')`. -/
def slashToDash (l : List Char) : List Char :=
  l.map (fun c => if c = '/' ∨ c = '\\' then '-' else c)

/-- `re.sub(r'[\x00-\x1f\x7f-\x9f]', '', filename)`. -/
def rmCtl (l : List Char) : List Char := l.filter (fun c => ! isCtl c)

/-- The final `if not filename: return 'untitled'` guard of both sanitizers. -/
def orUntitled (l : List Char) : List Char := if l = [] then untitled else l

/-- `sanitize_filename`: replace slashes by dashes, drop control characters,
collapse dash runs and space runs, strip `' '`, `'.'`, `'-'` from both ends,
fall back to `"untitled"` when empty. -/
def sanitizeFilenameL (l : List Char) : List Char :=
  if l = [] then untitled else
  orUntitled (stripChars [' ', '.', '-']
    (collapseRuns ' ' (collapseRuns '-' (rmCtl (slashToDash l)))))

/-- Characters kept verbatim by `sanitize_image_filename`'s `[^a-z0-9.-]`
replacement. -/
def isImgSafe (c : Char) : Bool :=
  (97 ≤ c.toNat && c.toNat ≤ 122) || (48 ≤ c.toNat && c.toNat ≤ 57) || c = '.' || c = '-'

/-- `re.sub(r'[^a-z0-9.-]', '-', filename)`. -/
def toImgSafe (l : List Char) : List Char :=
  l.map (fun c => if isImgSafe c then c else '-')

/-- `sanitize_image_filename` (lines 308-337): replace slashes, lower-case,
replace everything outside `[a-z0-9.-]` by a dash, drop control characters,
collapse dash runs, strip `'.'`, `'-'` from both ends, `"untitled"` fallback. -/
def sanitizeImageFilenameL (l : List Char) : List Char :=
  if l = [] then untitled else
  orUntitled (stripChars ['.', '-']
    (collapseRuns '-' (rmCtl (toImgSafe ((slashToDash l).map pyLower)))))

/-- String-level wrapper of `sanitizeFilenameL`. -/
def sanitize_filename (s : String) : String := ⟨sanitizeFilenameL s.data⟩

/-- String-level wrapper of `sanitizeImageFilenameL`. -/
def sanitize_image_filename (s : String) : String := ⟨sanitizeImageFilenameL s.data⟩

/-! ### Properties of `collapseRuns` and `stripChars` -/

/-- `noRun c l`: `l` has no two adjacent occurrences of `c`. -/
def noRun (c : Char) (l : List Char) : Prop :=
  l.Chain' (fun x y => ¬ (x = c ∧ y = c))

theorem collapseRuns_cons (c a : Char) (l : List Char) :
    ∃ t, collapseRuns c (a :: l) = a :: t := by
  induction l with
  | nil => exact ⟨[], rfl⟩
  | cons b rest ih =>
    by_cases h : a = c ∧ b = c
    · obtain ⟨t, ht⟩ := ih
      refine ⟨t, ?_⟩
      have hba : b = a := h.2.trans h.1.symm
      rw [collapseRuns, if_pos h, hba]
      exact ht
    · exact ⟨collapseRuns c (b :: rest), by rw [collapseRuns, if_neg h]⟩

theorem collapseRuns_sublist (c : Char) : ∀ l : List Char,
    (collapseRuns c l).Sublist l := by
  intro l
  induction l with
  | nil => simp [collapseRuns]
  | cons a rest ih =>
    cases rest with
    | nil => simp [collapseRuns]
    | cons b r =>
      by_cases h : a = c ∧ b = c
      · rw [collapseRuns, if_pos h]
        exact ih.cons a
      · rw [collapseRuns, if_neg h]
        exact ih.cons₂ a

theorem noRun_collapseRuns (c : Char) : ∀ l : List Char, noRun c (collapseRuns c l) := by
  intro l
  induction l with
  | nil => simp [collapseRuns, noRun]
  | cons a rest ih =>
    cases rest with
    | nil => simp [collapseRuns, noRun]
    | cons b r =>
      by_cases h : a = c ∧ b = c
      · rw [collapseRuns, if_pos h]; exact ih
      · rw [collapseRuns, if_neg h]
        obtain ⟨t, ht⟩ := collapseRuns_cons c b r
        rw [ht]
        rw [ht] at ih
        exact List.Chain'.cons (by tauto) ih

theorem collapseRuns_eq_self (c : Char) : ∀ l : List Char, noRun c l → collapseRuns c l = l := by
  intro l
  induction l with
  | nil => simp [collapseRuns]
  | cons a rest ih =>
    cases rest with
    | nil => simp [collapseRuns]
    | cons b r =>
      intro h
      rcases h with _ | ⟨hab, h'⟩
      rw [collapseRuns, if_neg hab]
      rw [ih h']

theorem noRun_preserved (c d : Char) : ∀ l : List Char,
    noRun d l → noRun d (collapseRuns c l) := by
  intro l
  induction l with
  | nil => intro _; simp [collapseRuns, noRun]
  | cons a rest ih =>
    cases rest with
    | nil => intro h; simpa [collapseRuns] using h
    | cons b r =>
      intro h
      rcases h with _ | ⟨hab, h'⟩
      by_cases hc : a = c ∧ b = c
      · rw [collapseRuns, if_pos hc]
        exact ih h'
      · rw [collapseRuns, if_neg hc]
        obtain ⟨t, ht⟩ := collapseRuns_cons c b r
        rw [ht]
        have := ih h'
        rw [ht] at this
        exact List.Chain'.cons hab this

theorem head?_dropWhile {α : Type} (p : α → Bool) : ∀ l : List α, ∀ a : α,
    (l.dropWhile p).head? = some a → p a = false := by
  intro l
  induction l with
  | nil => intro a h; simp at h
  | cons x rest ih =>
    intro a h
    by_cases hx : p x
    · rw [List.dropWhile_cons_of_pos hx] at h
      exact ih a h
    · rw [List.dropWhile_cons_of_neg hx] at h
      simp at h
      subst h
      simpa using hx

theorem dropWhile_eq_self {α : Type} (p : α → Bool) (l : List α)
    (h : ∀ a, l.head? = some a → p a = false) : l.dropWhile p = l := by
  cases l with
  | nil => simp
  | cons x rest =>
    have := h x (by simp)
    simp [List.dropWhile_cons, this]

theorem dropEnds_within {α : Type} (p : α → Bool) (l : List α) :
    dropEnds p l <:+: l := by
  unfold dropEnds
  have h₁ : l.dropWhile p <:+ l := List.dropWhile_suffix _
  have h₂ : (l.dropWhile p).reverse.dropWhile p <:+
      (l.dropWhile p).reverse := List.dropWhile_suffix _
  have h₃ : ((l.dropWhile p).reverse.dropWhile p).reverse <+: (l.dropWhile p) := by
    have := List.reverse_prefix.mpr h₂
    simpa using this
  exact h₃.isInfix.trans h₁.isInfix

theorem dropEnds_head? {α : Type} (p : α → Bool) (l : List α) (a : α)
    (h : (dropEnds p l).head? = some a) : p a = false := by
  unfold dropEnds at h
  rw [List.head?_reverse] at h
  set z := (l.dropWhile p).reverse with hz
  have hsuff : z.dropWhile p <:+ z := List.dropWhile_suffix _
  obtain ⟨t, ht⟩ := hsuff
  have hne : z.dropWhile p ≠ [] := by
    intro hnil; rw [hnil] at h; simp at h
  have hgl : z.getLast? = some a := by
    rw [← ht, List.getLast?_append_of_ne_nil t hne]
    exact h
  rw [hz, List.getLast?_reverse] at hgl
  exact head?_dropWhile p l a hgl

theorem dropEnds_getLast? {α : Type} (p : α → Bool) (l : List α) (a : α)
    (h : (dropEnds p l).getLast? = some a) : p a = false := by
  unfold dropEnds at h
  rw [List.getLast?_reverse] at h
  exact head?_dropWhile p (l.dropWhile p).reverse a h

theorem dropEnds_eq_self {α : Type} (p : α → Bool) (l : List α)
    (hh : ∀ a, l.head? = some a → p a = false)
    (hl : ∀ a, l.getLast? = some a → p a = false) : dropEnds p l = l := by
  unfold dropEnds
  have h₁ : l.dropWhile p = l := dropWhile_eq_self p l hh
  rw [h₁]
  have h₂ : l.reverse.dropWhile p = l.reverse := by
    apply dropWhile_eq_self
    intro a ha
    rw [List.head?_reverse] at ha
    exact hl a ha
  rw [h₂, List.reverse_reverse]

theorem stripChars_within (set : List Char) (l : List Char) :
    stripChars set l <:+: l := dropEnds_within _ l

theorem stripChars_head? (set : List Char) (l : List Char) (a : Char)
    (h : (stripChars set l).head? = some a) : a ∉ set := by
  have := dropEnds_head? (· ∈ set) l a h
  simpa using this

theorem stripChars_getLast? (set : List Char) (l : List Char) (a : Char)
    (h : (stripChars set l).getLast? = some a) : a ∉ set := by
  have := dropEnds_getLast? (· ∈ set) l a h
  simpa using this

theorem stripChars_eq_self (set : List Char) (l : List Char)
    (hh : ∀ a, l.head? = some a → a ∉ set)
    (hl : ∀ a, l.getLast? = some a → a ∉ set) : stripChars set l = l := by
  apply dropEnds_eq_self
  · intro a ha
    simpa using hh a ha
  · intro a ha
    simpa using hl a ha

/-! ### Sanitizer output invariants -/

/-- No control characters. -/
def noCtl (O : List Char) : Prop := ∀ c ∈ O, isCtl c = false

/-- No path separators. -/
def noSlash (O : List Char) : Prop := ∀ c ∈ O, c ≠ '/' ∧ c ≠ '\\'

/-- Both ends of the list avoid the given character set. -/
def endsNotIn (set : List Char) (O : List Char) : Prop :=
  (∀ a, O.head? = some a → a ∉ set) ∧ (∀ a, O.getLast? = some a → a ∉ set)

/-- Output invariant of `sanitize_filename`. -/
def sfGood (O : List Char) : Prop :=
  O ≠ [] ∧ noCtl O ∧ noSlash O ∧ noRun '-' O ∧ noRun ' ' O ∧
    endsNotIn [' ', '.', '-'] O

/-- Output invariant of `sanitize_image_filename`. -/
def sifGood (O : List Char) : Prop :=
  O ≠ [] ∧ (∀ c ∈ O, isImgSafe c = true) ∧ noRun '-' O ∧ endsNotIn ['.', '-'] O

theorem noRun_untitled (c : Char) : noRun c untitled := by
  have h : List.Chain' (fun x y => x ≠ y) untitled := by
    rw [show untitled = ['u', 'n', 't', 'i', 't', 'l', 'e', 'd'] from rfl]
    simp only [List.chain'_cons, List.chain'_singleton, and_true]
    refine ⟨?_, ?_, ?_, ?_, ?_, ?_, ?_⟩ <;> decide
  exact h.imp (fun a b hab hc => hab (hc.1.trans hc.2.symm))

theorem untitled_sfGood : sfGood untitled := by
  refine ⟨by decide, by unfold noCtl; decide, by unfold noSlash; decide,
    noRun_untitled '-', noRun_untitled ' ', ?_, ?_⟩
  · intro a h
    rw [show untitled.head? = some 'u' from rfl] at h
    cases h
    decide
  · intro a h
    rw [show untitled.getLast? = some 'd' from rfl] at h
    cases h
    decide

theorem untitled_sifGood : sifGood untitled := by
  refine ⟨by decide, by decide, noRun_untitled '-', ?_, ?_⟩
  · intro a h
    rw [show untitled.head? = some 'u' from rfl] at h
    cases h
    decide
  · intro a h
    rw [show untitled.getLast? = some 'd' from rfl] at h
    cases h
    decide

theorem sfGood_sanitizeFilenameL (l : List Char) : sfGood (sanitizeFilenameL l) := by
  unfold sanitizeFilenameL
  by_cases h0 : l = []
  · rw [if_pos h0]; exact untitled_sfGood
  rw [if_neg h0]
  set L₂ := rmCtl (slashToDash l) with hL₂
  set L₄ := collapseRuns ' ' (collapseRuns '-' L₂) with hL₄
  unfold orUntitled
  by_cases h5 : stripChars [' ', '.', '-'] L₄ = []
  · rw [if_pos h5]; exact untitled_sfGood
  rw [if_neg h5]
  have memsub : ∀ c ∈ stripChars [' ', '.', '-'] L₄, c ∈ L₂ := by
    intro c hc
    have h₁ : c ∈ L₄ := ((stripChars_within _ _).sublist.subset) hc
    have h₂ : c ∈ collapseRuns '-' L₂ := (collapseRuns_sublist ' ' _).subset h₁
    exact (collapseRuns_sublist '-' _).subset h₂
  refine ⟨h5, ?_, ?_, ?_, ?_, ?_, ?_⟩
  · intro c hc
    have h₂ := memsub c hc
    have := List.of_mem_filter h₂
    simpa using this
  · intro c hc
    have h₂ : c ∈ L₂ := memsub c hc
    have h₁ : c ∈ slashToDash l := List.mem_of_mem_filter h₂
    unfold slashToDash at h₁
    obtain ⟨a, _, ha⟩ := List.mem_map.mp h₁
    by_cases hs : a = '/' ∨ a = '\\'
    · rw [if_pos hs] at ha
      rw [← ha]
      exact ⟨by decide, by decide⟩
    · rw [if_neg hs] at ha
      rw [← ha]
      push_neg at hs
      exact hs
  · have h₃ : noRun '-' (collapseRuns '-' L₂) := noRun_collapseRuns '-' L₂
    have h₄ : noRun '-' L₄ := noRun_preserved ' ' '-' _ h₃
    exact List.Chain'.infix h₄ (stripChars_within _ _)
  · have h₄ : noRun ' ' L₄ := noRun_collapseRuns ' ' _
    exact List.Chain'.infix h₄ (stripChars_within _ _)
  · exact fun a h => stripChars_head? _ _ a h
  · exact fun a h => stripChars_getLast? _ _ a h

theorem isImgSafe_bounds (c : Char) (h : isImgSafe c = true) :
    45 ≤ c.toNat ∧ c.toNat ≤ 122 := by
  unfold isImgSafe at h
  simp only [Bool.or_eq_true, Bool.and_eq_true, decide_eq_true_eq] at h
  rcases h with ((⟨h1, h2⟩ | ⟨h1, h2⟩) | h) | h
  · omega
  · omega
  · rw [h]; exact ⟨by decide, by decide⟩
  · rw [h]; exact ⟨by decide, by decide⟩

theorem isImgSafe_notCtl (c : Char) (h : isImgSafe c = true) : isCtl c = false := by
  have := isImgSafe_bounds c h
  unfold isCtl
  simp only [Bool.or_eq_false_iff, Bool.and_eq_false_iff, decide_eq_false_iff_not]
  omega

theorem isImgSafe_pyLower (c : Char) (h : isImgSafe c = true) : pyLower c = c := by
  have hb := isImgSafe_bounds c h
  unfold pyLower
  rw [if_neg ?_]
  unfold isImgSafe at h
  simp only [Bool.or_eq_true, Bool.and_eq_true, decide_eq_true_eq] at h
  rcases h with ((⟨h1, h2⟩ | ⟨h1, h2⟩) | h) | h
  · omega
  · omega
  · rw [h]; decide
  · rw [h]; decide

theorem isImgSafe_noSlash (c : Char) (h : isImgSafe c = true) :
    c ≠ '/' ∧ c ≠ '\\' := by
  constructor
  · intro he; rw [he] at h; simp [isImgSafe] at h
  · intro he; rw [he] at h; simp [isImgSafe] at h

theorem sifGood_sanitizeImageFilenameL (l : List Char) :
    sifGood (sanitizeImageFilenameL l) := by
  unfold sanitizeImageFilenameL
  by_cases h0 : l = []
  · rw [if_pos h0]; exact untitled_sifGood
  rw [if_neg h0]
  set L₃ := toImgSafe ((slashToDash l).map pyLower) with hL₃
  set L₅ := collapseRuns '-' (rmCtl L₃) with hL₅
  unfold orUntitled
  by_cases h6 : stripChars ['.', '-'] L₅ = []
  · rw [if_pos h6]; exact untitled_sifGood
  rw [if_neg h6]
  have memsub : ∀ c ∈ stripChars ['.', '-'] L₅, c ∈ L₃ := by
    intro c hc
    have h₁ : c ∈ L₅ := ((stripChars_within _ _).sublist.subset) hc
    have h₂ : c ∈ rmCtl L₃ := (collapseRuns_sublist '-' _).subset h₁
    exact List.mem_of_mem_filter h₂
  have safe : ∀ c ∈ L₃, isImgSafe c = true := by
    intro c hc
    unfold toImgSafe at hc
    obtain ⟨a, _, ha⟩ := List.mem_map.mp hc
    by_cases hs : isImgSafe a
    · rw [if_pos hs] at ha; rw [← ha]; exact hs
    · rw [if_neg hs] at ha; rw [← ha]; decide
  refine ⟨h6, ?_, ?_, ?_, ?_⟩
  · intro c hc
    exact safe c (memsub c hc)
  · have h₅ : noRun '-' L₅ := noRun_collapseRuns '-' _
    exact List.Chain'.infix h₅ (stripChars_within _ _)
  · exact fun a h => stripChars_head? _ _ a h
  · exact fun a h => stripChars_getLast? _ _ a h

/-- A string satisfying the `sanitize_filename` output invariant is a fixed
point of `sanitize_filename`. -/
theorem sanitizeFilenameL_fixed (O : List Char) (h : sfGood O) :
    sanitizeFilenameL O = O := by
  obtain ⟨hne, hctl, hslash, hr1, hr2, hh, hl⟩ := h
  unfold sanitizeFilenameL
  rw [if_neg hne]
  have e₁ : slashToDash O = O := by
    unfold slashToDash
    have : O.map (fun c => if c = '/' ∨ c = '\\' then '-' else c) = O.map id :=
      List.map_congr_left (fun a ha => by
        have := hslash a ha
        rw [if_neg (by tauto)]
        rfl)
    simpa using this
  rw [e₁]
  have e₂ : rmCtl O = O := by
    unfold rmCtl
    apply List.filter_eq_self.mpr
    intro a ha
    simpa using hctl a ha
  rw [e₂, collapseRuns_eq_self '-' O hr1, collapseRuns_eq_self ' ' O hr2,
    stripChars_eq_self _ _ hh hl]
  unfold orUntitled
  rw [if_neg hne]

/-- A string satisfying the `sanitize_image_filename` output invariant is a
fixed point of `sanitize_image_filename`. -/
theorem sanitizeImageFilenameL_fixed (O : List Char) (h : sifGood O) :
    sanitizeImageFilenameL O = O := by
  obtain ⟨hne, hsafe, hr1, hh, hl⟩ := h
  unfold sanitizeImageFilenameL
  rw [if_neg hne]
  have e₁ : slashToDash O = O := by
    unfold slashToDash
    have : O.map (fun c => if c = '/' ∨ c = '\\' then '-' else c) = O.map id :=
      List.map_congr_left (fun a ha => by
        have := isImgSafe_noSlash a (hsafe a ha)
        rw [if_neg (by tauto)]
        rfl)
    simpa using this
  rw [e₁]
  have e₂ : O.map pyLower = O := by
    have : O.map pyLower = O.map id :=
      List.map_congr_left (fun a ha => by
        rw [isImgSafe_pyLower a (hsafe a ha)]; rfl)
    simpa using this
  rw [e₂]
  have e₃ : toImgSafe O = O := by
    unfold toImgSafe
    have : O.map (fun c => if isImgSafe c then c else '-') = O.map id :=
      List.map_congr_left (fun a ha => by
        rw [if_pos (hsafe a ha)]; rfl)
    simpa using this
  rw [e₃]
  have e₄ : rmCtl O = O := by
    unfold rmCtl
    apply List.filter_eq_self.mpr
    intro a ha
    simpa using isImgSafe_notCtl a (hsafe a ha)
  rw [e₄, collapseRuns_eq_self '-' O hr1, stripChars_eq_self _ _ hh hl]
  unfold orUntitled
  rw [if_neg hne]

/-- C9: `sanitize_filename` and `sanitize_image_filename` are total (they are
Lean functions) and idempotent; the result is never the empty string (the
fixed placeholder `"untitled"` is returned when sanitization empties the
input); and the result contains no control characters. -/
theorem C9_sanitizers_total_idempotent (s : String) :
    sanitize_filename (sanitize_filename s) = sanitize_filename s ∧
    sanitize_image_filename (sanitize_image_filename s) = sanitize_image_filename s ∧
    sanitize_filename s ≠ "" ∧
    sanitize_image_filename s ≠ "" ∧
    sanitize_filename "" = "untitled" ∧
    sanitize_image_filename "" = "untitled" ∧
    (∀ c ∈ (sanitize_filename s).data, isCtl c = false) ∧
    (∀ c ∈ (sanitize_image_filename s).data, isCtl c = false) := by
  have hf := sfGood_sanitizeFilenameL s.data
  have hi := sifGood_sanitizeImageFilenameL s.data
  refine ⟨?_, ?_, ?_, ?_, rfl, rfl, ?_, ?_⟩
  · show (⟨sanitizeFilenameL (sanitizeFilenameL s.data)⟩ : String) = _
    rw [sanitizeFilenameL_fixed _ hf]
    rfl
  · show (⟨sanitizeImageFilenameL (sanitizeImageFilenameL s.data)⟩ : String) = _
    rw [sanitizeImageFilenameL_fixed _ hi]
    rfl
  · intro h
    exact hf.1 (congrArg String.data h)
  · intro h
    exact hi.1 (congrArg String.data h)
  · exact hf.2.1
  · exact fun c hc => isImgSafe_notCtl c (hi.2.1 c hc)

/-- Witness for C9 at concrete inputs. -/
theorem C9_sanitizers_total_idempotent_witness :
    sanitize_filename (sanitize_filename "  a//b.  ") = sanitize_filename "  a//b.  " ∧
    sanitize_image_filename "My Pic (1).PNG" ≠ "" :=
  ⟨(C9_sanitizers_total_idempotent "  a//b.  ").1,
   (C9_sanitizers_total_idempotent "My Pic (1).PNG").2.2.2.1⟩

/-! ### Markdown whitespace cleanup (`convert_page_to_markdown`, lines 457-476) -/

/-- Python `str.isspace` / bare `str.strip()` whitespace characters. -/
def isPySpace (c : Char) : Bool :=
  (9 ≤ c.toNat && c.toNat ≤ 13) || (28 ≤ c.toNat && c.toNat ≤ 32) ||
  c.toNat = 133 || c.toNat = 160 || c.toNat = 0x1680 ||
  (0x2000 ≤ c.toNat && c.toNat ≤ 0x200a) || c.toNat = 0x2028 ||
  c.toNat = 0x2029 || c.toNat = 0x202f || c.toNat = 0x205f || c.toNat = 0x3000

/-- Python `str.splitlines` line-boundary characters. -/
def isLineBreak (c : Char) : Bool :=
  (10 ≤ c.toNat && c.toNat ≤ 13) || (28 ≤ c.toNat && c.toNat ≤ 30) ||
  c.toNat = 133 || c.toNat = 0x2028 || c.toNat = 0x2029

/-- Python `line.strip()` with no arguments. -/
def pyStrip (l : List Char) : List Char := dropEnds isPySpace l

/-- Worker of `str.splitlines`: `acc` is the reversed current line;
`\r\n` counts as a single boundary; a terminal boundary produces no extra
empty line. -/
def pySplitlinesGo : List Char → List Char → List (List Char)
  | [], acc => [acc.reverse]
  | '\r' :: '\n' :: rest, acc =>
    acc.reverse :: (if rest = [] then [] else pySplitlinesGo rest [])
  | c :: rest, acc =>
    if isLineBreak c then
      acc.reverse :: (if rest = [] then [] else pySplitlinesGo rest [])
    else pySplitlinesGo rest (c :: acc)

/-- Python `markdown.splitlines()`. -/
def pySplitlines (l : List Char) : List (List Char) :=
  match l with
  | [] => []
  | _ => pySplitlinesGo l []

/-- The blank-line collapsing loop of `convert_page_to_markdown`: the second
argument is the `prev_blank` flag. -/
def collapseBlank : List (List Char) → Bool → List (List Char)
  | [], _ => []
  | l :: ls, prevBlank =>
    if l = [] then
      if prevBlank then collapseBlank ls true
      else [] :: collapseBlank ls true
    else l :: collapseBlank ls false

/-- The two `while` loops removing leading and trailing blank lines. -/
def dropBlankEnds (ls : List (List Char)) : List (List Char) :=
  dropEnds (·.isEmpty) ls

/-- The cleaned line list produced at the end of `convert_page_to_markdown`. -/
def cleanupLines (markdown : List Char) : List (List Char) :=
  dropBlankEnds (collapseBlank ((pySplitlines markdown).map pyStrip) false)

/-- The full cleanup: strip every line, collapse blank runs, drop boundary
blank lines, re-join with `'\n'`. -/
def cleanupMarkdown (markdown : List Char) : List Char :=
  List.intercalate ['\n'] (cleanupLines markdown)

theorem collapseBlank_filter : ∀ (ls : List (List Char)) (b : Bool),
    (collapseBlank ls b).filter (· ≠ []) = ls.filter (· ≠ []) := by
  intro ls
  induction ls with
  | nil => intro b; rfl
  | cons l rest ih =>
    intro b
    by_cases hl : l = []
    · subst hl
      by_cases hb : b
      · subst hb
        rw [collapseBlank, if_pos rfl, if_pos rfl]
        rw [ih true]
        simp
      · simp only [Bool.not_eq_true] at hb
        subst hb
        rw [collapseBlank, if_pos rfl, if_neg (by simp)]
        rw [List.filter_cons, List.filter_cons, if_neg (by decide),
          if_neg (by decide)]
        exact ih true
    · rw [collapseBlank, if_neg hl]
      rw [List.filter_cons, List.filter_cons, if_pos (by simpa using hl),
        if_pos (by simpa using hl), ih false]

theorem collapseBlank_head_true : ∀ ls : List (List Char), ∀ x,
    (collapseBlank ls true).head? = some x → x ≠ [] := by
  intro ls
  induction ls with
  | nil => intro x h; simp [collapseBlank] at h
  | cons l rest ih =>
    intro x h
    by_cases hl : l = []
    · subst hl
      rw [collapseBlank, if_pos rfl, if_pos rfl] at h
      exact ih x h
    · rw [collapseBlank, if_neg hl] at h
      simp at h
      rw [← h]
      exact hl

theorem collapseBlank_chain : ∀ (ls : List (List Char)) (b : Bool),
    (collapseBlank ls b).Chain' (fun x y => ¬(x = [] ∧ y = [])) := by
  intro ls
  induction ls with
  | nil => intro b; simp [collapseBlank]
  | cons l rest ih =>
    intro b
    by_cases hl : l = []
    · subst hl
      by_cases hb : b
      · subst hb
        rw [collapseBlank, if_pos rfl, if_pos rfl]
        exact ih true
      · simp only [Bool.not_eq_true] at hb
        subst hb
        rw [collapseBlank, if_pos rfl, if_neg (by simp)]
        rw [List.chain'_cons']
        refine ⟨?_, ih true⟩
        intro y hy
        have := collapseBlank_head_true rest y hy
        tauto
    · rw [collapseBlank, if_neg hl]
      rw [List.chain'_cons']
      refine ⟨?_, ih false⟩
      intro y _
      tauto

theorem collapseBlank_mem : ∀ (ls : List (List Char)) (b : Bool), ∀ x,
    x ∈ collapseBlank ls b → x = [] ∨ x ∈ ls := by
  intro ls
  induction ls with
  | nil => intro b x h; simp [collapseBlank] at h
  | cons l rest ih =>
    intro b x h
    by_cases hl : l = []
    · subst hl
      by_cases hb : b
      · subst hb
        rw [collapseBlank, if_pos rfl, if_pos rfl] at h
        rcases ih true x h with h' | h'
        · exact Or.inl h'
        · exact Or.inr (List.mem_cons_of_mem _ h')
      · simp only [Bool.not_eq_true] at hb
        subst hb
        rw [collapseBlank, if_pos rfl, if_neg (by simp)] at h
        rcases List.mem_cons.mp h with h' | h'
        · exact Or.inl h'
        · rcases ih true x h' with h'' | h''
          · exact Or.inl h''
          · exact Or.inr (List.mem_cons_of_mem _ h'')
    · rw [collapseBlank, if_neg hl] at h
      rcases List.mem_cons.mp h with h' | h'
      · exact Or.inr (List.mem_cons.mpr (Or.inl h'))
      · rcases ih false x h' with h'' | h''
        · exact Or.inl h''
        · exact Or.inr (List.mem_cons_of_mem _ h'')

theorem filter_dropWhile {α : Type} (p q : α → Bool)
    (h : ∀ a, p a = true → q a = false) : ∀ l : List α,
    (l.dropWhile p).filter q = l.filter q := by
  intro l
  induction l with
  | nil => rfl
  | cons x rest ih =>
    by_cases hx : p x
    · rw [List.dropWhile_cons_of_pos hx, ih, List.filter_cons,
        if_neg (by rw [h x hx]; simp)]
    · rw [List.dropWhile_cons_of_neg hx]

theorem dropEnds_filter {α : Type} (p q : α → Bool)
    (h : ∀ a, p a = true → q a = false) (l : List α) :
    (dropEnds p l).filter q = l.filter q := by
  unfold dropEnds
  rw [List.filter_reverse, filter_dropWhile p q h, List.filter_reverse,
    List.reverse_reverse, filter_dropWhile p q h]

theorem pyStrip_idem (l : List Char) : pyStrip (pyStrip l) = pyStrip l := by
  unfold pyStrip
  apply dropEnds_eq_self
  · exact fun a ha => dropEnds_head? _ _ a ha
  · exact fun a ha => dropEnds_getLast? _ _ a ha

/-- Independent statement of the blank-run collapse: every maximal run of
two or more consecutive blank lines is replaced by exactly one blank line;
non-blank lines and isolated blank lines are untouched. -/
def collapseBlankRuns : List (List Char) → List (List Char)
  | [] => []
  | [a] => [a]
  | a :: b :: rest =>
    if a = [] ∧ b = [] then collapseBlankRuns (b :: rest)
    else a :: collapseBlankRuns (b :: rest)

theorem collapseBlankRuns_cons_ne (a : List Char) (rest : List (List Char))
    (ha : a ≠ []) :
    collapseBlankRuns (a :: rest) = a :: collapseBlankRuns rest := by
  cases rest with
  | nil => rfl
  | cons b r =>
    rw [collapseBlankRuns, if_neg (by tauto)]

theorem dropWhile_dropWhile {α : Type} (p : α → Bool) (l : List α) :
    (l.dropWhile p).dropWhile p = l.dropWhile p := by
  apply dropWhile_eq_self
  intro a ha
  exact head?_dropWhile p l a ha

theorem collapseBlankRuns_blank_cons : ∀ rest : List (List Char),
    collapseBlankRuns ([] :: rest) =
      [] :: (collapseBlankRuns rest).dropWhile (·.isEmpty) := by
  intro rest
  induction rest with
  | nil => rfl
  | cons b r ih =>
    by_cases hb : b = []
    · subst hb
      have h1 : collapseBlankRuns ([] :: [] :: r) = collapseBlankRuns ([] :: r) := by
        rw [collapseBlankRuns, if_pos ⟨rfl, rfl⟩]
      rw [h1, ih]
      congr 1
      rw [List.dropWhile_cons_of_pos (by simp), dropWhile_dropWhile]
    · rw [collapseBlankRuns, if_neg (by tauto)]
      congr 1
      rw [collapseBlankRuns_cons_ne b r hb,
        List.dropWhile_cons_of_neg (by simp [List.isEmpty_iff, hb])]

/-- The one-pass `prev_blank`-flag loop of the source computes exactly the
run collapse: with the flag down it equals `collapseBlankRuns`, and with the
flag up it additionally drops the leading blank of a first run. -/
theorem collapseBlank_eq_runs : ∀ ls : List (List Char),
    collapseBlank ls false = collapseBlankRuns ls ∧
    collapseBlank ls true = (collapseBlankRuns ls).dropWhile (·.isEmpty) := by
  intro ls
  induction ls with
  | nil => exact ⟨rfl, rfl⟩
  | cons a rest ih =>
    constructor
    · by_cases ha : a = []
      · subst ha
        rw [collapseBlank, if_pos rfl, if_neg (by simp)]
        rw [ih.2, collapseBlankRuns_blank_cons]
      · rw [collapseBlank, if_neg ha, ih.1, collapseBlankRuns_cons_ne a rest ha]
    · by_cases ha : a = []
      · subst ha
        rw [collapseBlank, if_pos rfl, if_pos rfl]
        rw [ih.2, collapseBlankRuns_blank_cons,
          List.dropWhile_cons_of_pos (by simp), dropWhile_dropWhile]
      · rw [collapseBlank, if_neg ha, ih.1, collapseBlankRuns_cons_ne a rest ha,
          List.dropWhile_cons_of_neg (by simp [List.isEmpty_iff, ha])]

/-- C5 counterexample: the cleanup strips *leading* whitespace of a line as
well (Python `line.strip()`), contradicting the claim that the rest of each
line — including leading whitespace — is left unchanged.  On input `"  x"`
the claimed post-processing would return `"  x"`, but the code returns
`"x"`. -/
theorem C5_counterexample :
    cleanupMarkdown "  x".data = "x".data ∧ ("x".data : List Char) ≠ "  x".data := by
  exact ⟨rfl, by decide⟩

/-- C5 (amended): the renderer's post-processing strips leading *and*
trailing whitespace from every line, collapses every run of two or more
consecutive blank lines to *exactly one* blank line, and removes all
leading and trailing blank lines: the output is the cleaned line list
joined by `'\n'`; the non-blank lines are exactly the stripped non-blank
input lines in order; no two adjacent output lines are both blank; the
first and last output lines are not blank; every output line carries no
leading or trailing whitespace; the cleaned line list is exactly the
stripped input lines with each blank run replaced by a single blank line
and boundary blanks removed (`collapseBlankRuns` then `dropEnds`); and the
spec's test holds: five consecutive blank lines collapse to exactly one. -/
theorem C5_cleanup_amended (s : List Char) :
    cleanupMarkdown s = List.intercalate ['\n'] (cleanupLines s) ∧
    (cleanupLines s).filter (· ≠ []) =
      ((pySplitlines s).map pyStrip).filter (· ≠ []) ∧
    (cleanupLines s).Chain' (fun x y => ¬(x = [] ∧ y = [])) ∧
    (∀ x, (cleanupLines s).head? = some x → x ≠ []) ∧
    (∀ x, (cleanupLines s).getLast? = some x → x ≠ []) ∧
    (∀ x ∈ cleanupLines s, pyStrip x = x) ∧
    cleanupLines s =
      dropEnds (·.isEmpty)
        (collapseBlankRuns ((pySplitlines s).map pyStrip)) ∧
    cleanupMarkdown "a\n\n\n\n\n\nb".data = "a\n\nb".data := by
  refine ⟨rfl, ?_, ?_, ?_, ?_, ?_, ?_, by decide⟩
  · unfold cleanupLines dropBlankEnds
    rw [dropEnds_filter _ _ (fun a ha => by
      simp only [List.isEmpty_iff] at ha
      simp [ha])]
    exact collapseBlank_filter _ false
  · exact List.Chain'.infix (collapseBlank_chain _ false) (dropEnds_within _ _)
  · intro x hx
    have := dropEnds_head? _ _ x hx
    simpa [List.isEmpty_iff] using this
  · intro x hx
    have := dropEnds_getLast? _ _ x hx
    simpa [List.isEmpty_iff] using this
  · intro x hx
    have hx' : x ∈ collapseBlank ((pySplitlines s).map pyStrip) false :=
      ((dropEnds_within _ _).sublist.subset) hx
    rcases collapseBlank_mem _ false x hx' with h | h
    · rw [h]; rfl
    · obtain ⟨y, _, hy⟩ := List.mem_map.mp h
      rw [← hy]
      exact pyStrip_idem y
  · unfold cleanupLines dropBlankEnds
    rw [(collapseBlank_eq_runs _).1]

/-- Witness for C5's amended theorem: the head of the cleaned line list of
`"  x"` is the non-blank line `"x"`. -/
theorem C5_cleanup_amended_witness : ("x".data : List Char) ≠ [] :=
  (C5_cleanup_amended "  x".data).2.2.2.1 "x".data rfl

/-! ### HTML model and `_convert_bold_spans` (lines 390-401) -/

/-- Python's `in` operator on strings: `needle` occurs as a contiguous
substring of the second argument. -/
def containsSub (needle : List Char) : List Char → Bool
  | [] => needle.isEmpty
  | c :: rest => needle.isPrefixOf (c :: rest) || containsSub needle rest

/-- A parsed HTML node (BeautifulSoup `NavigableString` / `Tag`). -/
inductive HNode where
  | text (s : List Char)
  | elem (tag : List Char) (attrs : List (List Char × List Char)) (children : List HNode)

/-- `tag.get(name)`. -/
def getAttr (attrs : List (List Char × List Char)) (name : List Char) :
    Option (List Char) :=
  (attrs.find? (fun p => p.1 = name)).map (·.2)

/-- `span.get('style', '')`. -/
def styleOf (attrs : List (List Char × List Char)) : List Char :=
  (getAttr attrs "style".data).getD []

/-- `'font-weight:bold' in style or 'font-weight: 700' in style`. -/
def isBoldStyle (style : List Char) : Bool :=
  containsSub "font-weight:bold".data style ||
  containsSub "font-weight: 700".data style

/-- `_convert_bold_spans`: for every span whose style declares bold weight,
move its contents into a fresh `b` element and re-append that `b` as the
span's sole child (`b.extend(span.contents); span.clear(); span.append(b)`).
Processing a span changes neither the styles nor the relative structure of
the other spans, so the document-order `find_all('span')` loop of the source
is equivalent to this single structural recursion. -/
def convertBoldSpans : HNode → HNode
  | .text s => .text s
  | .elem tag attrs children =>
    let children' := children.attach.map (fun ⟨c, _⟩ => convertBoldSpans c)
    if tag = "span".data ∧ isBoldStyle (styleOf attrs) then
      .elem tag attrs [.elem "b".data [] children']
    else .elem tag attrs children'

/-- Number of bold-styled `span` elements in a document. -/
def countBoldSpans : HNode → Nat
  | .text _ => 0
  | .elem tag attrs children =>
    (if tag = "span".data ∧ isBoldStyle (styleOf attrs) then 1 else 0) +
    (children.attach.map (fun ⟨c, _⟩ => countBoldSpans c)).sum

/-- Concatenated text content of a document. -/
def textContent : HNode → List Char
  | .text s => s
  | .elem _ _ children =>
    (children.attach.map (fun ⟨c, _⟩ => textContent c)).flatten

/-- The child list consists of exactly one attribute-free `b` element. -/
def isSingleB : List HNode → Bool
  | [HNode.elem btag battrs _] => decide (btag = "b".data ∧ battrs = [])
  | _ => false

/-- Every bold-styled span in the document has exactly one child, a `b`
element with no attributes (the shape produced by the pass). -/
def boldWrapped : HNode → Bool
  | .text _ => true
  | .elem tag attrs children =>
    (decide (¬(tag = "span".data ∧ isBoldStyle (styleOf attrs))) ||
      isSingleB children) &&
    (children.attach.map (fun ⟨c, _⟩ => boldWrapped c)).all (fun b => b)

theorem convertBoldSpans_text (s : List Char) :
    convertBoldSpans (.text s) = .text s := by
  rw [convertBoldSpans]

theorem convertBoldSpans_elem (tag : List Char)
    (attrs : List (List Char × List Char)) (children : List HNode) :
    convertBoldSpans (.elem tag attrs children) =
    if tag = "span".data ∧ isBoldStyle (styleOf attrs) then
      .elem tag attrs [.elem "b".data [] (children.map convertBoldSpans)]
    else .elem tag attrs (children.map convertBoldSpans) := by
  rw [convertBoldSpans]
  simp only [List.attach_map_coe]

theorem countBoldSpans_text (s : List Char) : countBoldSpans (.text s) = 0 := by
  rw [countBoldSpans]

theorem countBoldSpans_elem (tag : List Char)
    (attrs : List (List Char × List Char)) (children : List HNode) :
    countBoldSpans (.elem tag attrs children) =
    (if tag = "span".data ∧ isBoldStyle (styleOf attrs) then 1 else 0) +
    (children.map countBoldSpans).sum := by
  rw [countBoldSpans]
  simp only [List.attach_map_coe]

theorem textContent_text (s : List Char) : textContent (.text s) = s := by
  rw [textContent]

theorem textContent_elem (tag : List Char)
    (attrs : List (List Char × List Char)) (children : List HNode) :
    textContent (.elem tag attrs children) =
    (children.map textContent).flatten := by
  rw [textContent]
  simp only [List.attach_map_coe]

theorem boldWrapped_text (s : List Char) : boldWrapped (.text s) = true := by
  rw [boldWrapped]

theorem boldWrapped_elem (tag : List Char)
    (attrs : List (List Char × List Char)) (children : List HNode) :
    boldWrapped (.elem tag attrs children) =
    ((decide (¬(tag = "span".data ∧ isBoldStyle (styleOf attrs))) ||
      isSingleB children) &&
     (children.map boldWrapped).all (fun b => b)) := by
  rw [boldWrapped]
  simp only [List.attach_map_coe]

theorem textContent_convertBoldSpans : ∀ n : HNode,
    textContent (convertBoldSpans n) = textContent n := by
  intro n
  induction n using convertBoldSpans.induct with
  | case1 s => rw [convertBoldSpans_text]
  | case2 tag attrs children hcond ih =>
    rw [convertBoldSpans_elem, if_pos hcond]
    simp only [textContent_elem, List.map_cons, List.map_nil,
      List.flatten_cons, List.flatten_nil, List.append_nil, List.map_map]
    congr 1
    apply List.map_congr_left
    intro c hc
    exact ih c hc
  | case3 tag attrs children hcond ih =>
    rw [convertBoldSpans_elem, if_neg hcond]
    simp only [textContent_elem, List.map_map]
    congr 1
    apply List.map_congr_left
    intro c hc
    exact ih c hc

theorem boldWrapped_convertBoldSpans : ∀ n : HNode,
    boldWrapped (convertBoldSpans n) = true := by
  intro n
  induction n using convertBoldSpans.induct with
  | case1 s => rw [convertBoldSpans_text, boldWrapped_text]
  | case2 tag attrs children hcond ih =>
    rw [convertBoldSpans_elem, if_pos hcond, boldWrapped_elem]
    simp only [Bool.and_eq_true, Bool.or_eq_true, decide_eq_true_eq]
    constructor
    · exact Or.inr (by simp [isSingleB])
    · simp only [List.map_cons, List.map_nil, List.all_cons, List.all_nil,
        Bool.and_eq_true, and_true]
      rw [boldWrapped_elem]
      simp only [Bool.and_eq_true, Bool.or_eq_true, decide_eq_true_eq]
      constructor
      · exact Or.inl (by decide)
      · simp only [List.map_map, List.all_eq_true, List.mem_map,
          Function.comp]
        rintro b ⟨c, hc, rfl⟩
        exact ih c hc
  | case3 tag attrs children hcond ih =>
    rw [convertBoldSpans_elem, if_neg hcond, boldWrapped_elem]
    simp only [Bool.and_eq_true, Bool.or_eq_true, decide_eq_true_eq]
    refine ⟨Or.inl hcond, ?_⟩
    simp only [List.map_map, List.all_eq_true, List.mem_map, Function.comp]
    rintro b ⟨c, hc, rfl⟩
    exact ih c hc

/-- The spec's concrete bold-span example: a span with
`style="font-weight:bold"` wrapping the text `"Hi"`. -/
def boldDoc : HNode :=
  .elem "span".data [("style".data, "font-weight:bold".data)] [.text "Hi".data]

/-- C6 counterexample: the pass does *not* replace the bold-styled span — it
re-homes the contents under a new `b` element that stays *inside* the span
(`span.append(b)`), so the span element still appears afterwards: on the
spec's own example the result still contains exactly one bold-styled span. -/
theorem C6_counterexample :
    convertBoldSpans boldDoc =
      .elem "span".data [("style".data, "font-weight:bold".data)]
        [.elem "b".data [] [.text "Hi".data]] ∧
    countBoldSpans (convertBoldSpans boldDoc) = 1 ∧
    countBoldSpans (convertBoldSpans boldDoc) ≠ 0 := by
  have h1 : convertBoldSpans boldDoc =
      .elem "span".data [("style".data, "font-weight:bold".data)]
        [.elem "b".data [] [.text "Hi".data]] := by
    unfold boldDoc
    rw [convertBoldSpans_elem, if_pos ⟨rfl, by decide⟩, List.map_cons,
      List.map_nil, convertBoldSpans_text]
  refine ⟨h1, ?_, ?_⟩
  · rw [h1, countBoldSpans_elem, if_pos ⟨rfl, by decide⟩, List.map_cons,
      List.map_nil, countBoldSpans_elem, if_neg (by decide), List.map_cons,
      List.map_nil, countBoldSpans_text]
    rfl
  · rw [h1, countBoldSpans_elem, if_pos ⟨rfl, by decide⟩, List.map_cons,
      List.map_nil, countBoldSpans_elem, if_neg (by decide), List.map_cons,
      List.map_nil, countBoldSpans_text]
    decide

/-- C6 (amended): for every span whose style declares bold weight (keyword
or numeric form), the pass moves the span's children under a new semantic
`b` element which becomes the span's sole child — the span element itself is
kept, wrapping the `b`.  After the pass every bold-styled span has exactly
this shape, and the document's text content is unchanged. -/
theorem C6_bold_span_promotion (n : HNode) :
    boldWrapped (convertBoldSpans n) = true ∧
    textContent (convertBoldSpans n) = textContent n ∧
    (∀ (tag : List Char) (attrs : List (List Char × List Char))
       (children : List HNode),
       tag = "span".data ∧ isBoldStyle (styleOf attrs) →
       convertBoldSpans (.elem tag attrs children) =
         .elem tag attrs [.elem "b".data [] (children.map convertBoldSpans)]) :=
  ⟨boldWrapped_convertBoldSpans n, textContent_convertBoldSpans n,
   fun tag attrs children hcond => by rw [convertBoldSpans_elem, if_pos hcond]⟩

/-- Witness for C6's amended theorem at the spec's example span. -/
theorem C6_bold_span_promotion_witness :
    convertBoldSpans boldDoc =
      .elem "span".data [("style".data, "font-weight:bold".data)]
        [.elem "b".data [] [.text "Hi".data]] := by
  have h := (C6_bold_span_promotion boldDoc).2.2 "span".data
    [("style".data, "font-weight:bold".data)] [.text "Hi".data]
    ⟨rfl, by decide⟩
  unfold boldDoc
  rw [h, List.map_cons, List.map_nil, convertBoldSpans_text]

/-! ### Decimal rendering of the image counter (Python `f"..{counter}.."`) -/

/-- Accumulating decimal digit renderer (most significant digit first). -/
def natDigitsAux (n : Nat) (acc : List Char) : List Char :=
  if h : n = 0 then acc
  else natDigitsAux (n / 10) (Nat.digitChar (n % 10) :: acc)
termination_by n
decreasing_by exact Nat.div_lt_self (Nat.pos_of_ne_zero h) (by decide)

/-- Decimal representation of a natural number, as produced by Python's
`str`/f-string formatting of a non-negative `int`. -/
def decimalRepr (n : Nat) : List Char :=
  if n = 0 then ['0'] else natDigitsAux n []

/-- ASCII decimal digit. -/
def isDigitCh (c : Char) : Bool := 48 ≤ c.toNat && c.toNat ≤ 57

/-- Value of a decimal digit string (inverse of `decimalRepr`). -/
def decVal (l : List Char) : Nat :=
  l.foldl (fun a c => a * 10 + (c.toNat - 48)) 0

theorem digitChar_toNat (m : Nat) (h : m < 10) :
    (Nat.digitChar m).toNat - 48 = m ∧ isDigitCh (Nat.digitChar m) = true := by
  interval_cases m <;> exact ⟨by decide, by decide⟩

theorem natDigitsAux_zero (acc : List Char) : natDigitsAux 0 acc = acc := by
  rw [natDigitsAux]
  simp

theorem natDigitsAux_ne (n : Nat) (h : n ≠ 0) (acc : List Char) :
    natDigitsAux n acc = natDigitsAux (n / 10) (Nat.digitChar (n % 10) :: acc) := by
  rw [natDigitsAux]
  simp only [h, dite_false]

theorem natDigitsAux_append (n : Nat) : ∀ acc : List Char,
    natDigitsAux n acc = natDigitsAux n [] ++ acc := by
  induction n using Nat.strong_induction_on with
  | _ n ih =>
    intro acc
    by_cases h : n = 0
    · subst h
      rw [natDigitsAux_zero, natDigitsAux_zero]
      simp
    · have hlt : n / 10 < n := Nat.div_lt_self (Nat.pos_of_ne_zero h) (by decide)
      rw [natDigitsAux_ne n h acc, natDigitsAux_ne n h [],
        ih _ hlt (Nat.digitChar (n % 10) :: acc),
        ih _ hlt [Nat.digitChar (n % 10)]]
      simp

theorem decVal_natDigitsAux (n : Nat) : decVal (natDigitsAux n []) = n := by
  induction n using Nat.strong_induction_on with
  | _ n ih =>
    by_cases h : n = 0
    · subst h
      rw [natDigitsAux_zero]
      simp [decVal]
    · have hlt : n / 10 < n := Nat.div_lt_self (Nat.pos_of_ne_zero h) (by decide)
      rw [natDigitsAux_ne n h [], natDigitsAux_append]
      unfold decVal
      rw [List.foldl_append]
      have hdig := digitChar_toNat (n % 10) (Nat.mod_lt n (by decide))
      have : decVal (natDigitsAux (n / 10) []) = n / 10 := ih _ hlt
      unfold decVal at this
      rw [this]
      simp only [List.foldl_cons, List.foldl_nil]
      rw [hdig.1]
      omega

theorem decVal_decimalRepr (n : Nat) : decVal (decimalRepr n) = n := by
  unfold decimalRepr
  by_cases h : n = 0
  · simp [h, decVal]
  · rw [if_neg h]
    exact decVal_natDigitsAux n

theorem decimalRepr_inj (m n : Nat) (h : decimalRepr m = decimalRepr n) :
    m = n := by
  have := decVal_decimalRepr m
  rw [h, decVal_decimalRepr n] at this
  exact this.symm

theorem decimalRepr_digits (n : Nat) :
    ∀ c ∈ decimalRepr n, isDigitCh c = true := by
  unfold decimalRepr
  by_cases h : n = 0
  · simp [h]
    decide
  · rw [if_neg h]
    clear h
    induction n using Nat.strong_induction_on with
    | _ n ih =>
      intro c hc
      by_cases h : n = 0
      · subst h
        rw [natDigitsAux_zero] at hc
        simp at hc
      · have hlt : n / 10 < n := Nat.div_lt_self (Nat.pos_of_ne_zero h) (by decide)
        rw [natDigitsAux_ne n h [], natDigitsAux_append] at hc
        rcases List.mem_append.mp hc with h' | h'
        · exact ih _ hlt c h'
        · simp at h'
          rw [h']
          exact (digitChar_toNat (n % 10) (Nat.mod_lt n (by decide))).2

/-! ### `download_image` naming (lines 339-366) -/

/-- Inputs of one `download_image` call that determine the generated local
filename.  The URL-path extension (`os.path.splitext(urlparse(url).path)[1]`),
the presence of auth headers, and the content-type returned by the `HEAD`
probe are explicit inputs: URL parsing and the network probe are external
collaborators. -/
structure ImgCall where
  url : List Char
  rawExt : List Char
  hasHeaders : Bool
  contentType : List Char

/-- `content_type.split('/')[-1]`: the segment after the last `'/'`. -/
def afterLastSlash (l : List Char) : List Char :=
  (l.reverse.takeWhile (fun c => decide (c ≠ '/'))).reverse

/-- Lines 347-359: extension from the URL path, else from the `HEAD`
content-type when headers are available, else `'.png'`; ensure a leading
dot. -/
def rawOrProbedExt (call : ImgCall) : List Char :=
  let ext := call.rawExt
  let ext := if ext = [] ∧ call.hasHeaders = true ∧
      containsSub "image/".data call.contentType = true
    then '.' :: afterLastSlash call.contentType else ext
  let ext := if ext = [] then ".png".data else ext
  if ext.head? ≠ some '.' then '.' :: ext else ext

/-- Lines 361-364: `ext = sanitize_filename(ext.lstrip('.'))`, then ensure a
leading dot again. -/
def deriveExt (call : ImgCall) : List Char :=
  let ext := sanitizeFilenameL ((rawOrProbedExt call).dropWhile (· = '.'))
  if ext.head? ≠ some '.' then '.' :: ext else ext

/-- The sanitized extension always starts with a dot followed by the
sanitizer output (which never starts with a dot). -/
theorem deriveExt_eq (call : ImgCall) :
    deriveExt call =
      '.' :: sanitizeFilenameL ((rawOrProbedExt call).dropWhile (· = '.')) := by
  unfold deriveExt
  have hg := sfGood_sanitizeFilenameL ((rawOrProbedExt call).dropWhile (· = '.'))
  obtain ⟨hne, _, _, _, _, hh, _⟩ := hg
  cases hE : sanitizeFilenameL ((rawOrProbedExt call).dropWhile (· = '.')) with
  | nil => exact absurd hE hne
  | cons a t =>
    have ha : a ∉ ([' ', '.', '-'] : List Char) := by
      apply hh
      rw [hE]
      rfl
    have : a ≠ '.' := by
      intro he
      exact ha (by rw [he]; simp)
    rw [if_pos (by simp [this])]

/-- Line 366: the generated local filename
`f"{page_name}_image_{url_hash}_{self.image_counter}{ext}"`, where
`page_name = sanitize_image_filename(page_title)` and
`url_hash = md5hex(url)[:8]`; the MD5 hex digest is an abstract parameter. -/
def mkImageName (md5hex : List Char → List Char) (pageTitle : List Char)
    (counterVal : Nat) (call : ImgCall) : List Char :=
  sanitizeImageFilenameL pageTitle ++ "_image_".data ++
    (md5hex call.url).take 8 ++ ['_'] ++ decimalRepr counterVal ++ deriveExt call

/-- One `download_image` call: `self.image_counter += 1` happens *before*
the name is built (line 345 precedes line 366), so the generated name
carries the incremented counter value. -/
def downloadImageStep (md5hex : List Char → List Char) (pageTitle : List Char)
    (call : ImgCall) (counter : Nat) : List Char × Nat :=
  let counter' := counter + 1
  (mkImageName md5hex pageTitle counter' call, counter')

/-- Names generated by successive sequential `download_image` calls starting
from a given counter value. -/
def runImageNamesFrom (md5hex : List Char → List Char) (pageTitle : List Char) :
    List ImgCall → Nat → List (List Char)
  | [], _ => []
  | c :: cs, counter =>
    (downloadImageStep md5hex pageTitle c counter).1 ::
      runImageNamesFrom md5hex pageTitle cs
        (downloadImageStep md5hex pageTitle c counter).2

/-- Names generated within one page's counter scope: `process_page`
(line 511) resets `self.image_counter = 0` at the start of the page. -/
def runImageNames (md5hex : List Char → List Char) (pageTitle : List Char)
    (calls : List ImgCall) : List (List Char) :=
  runImageNamesFrom md5hex pageTitle calls 0

theorem runImageNamesFrom_eq_mapIdx (md5hex : List Char → List Char)
    (pageTitle : List Char) : ∀ (calls : List ImgCall) (k : Nat),
    runImageNamesFrom md5hex pageTitle calls k =
      calls.mapIdx (fun i c => mkImageName md5hex pageTitle (k + i + 1) c) := by
  intro calls
  induction calls with
  | nil => intro k; rfl
  | cons c cs ih =>
    intro k
    rw [runImageNamesFrom, List.mapIdx_cons]
    simp only [downloadImageStep]
    rw [ih (k + 1)]
    have harith : k + 0 + 1 = k + 1 := by omega
    rw [harith]
    congr 1
    have hfun : (fun i c => mkImageName md5hex pageTitle (k + 1 + i + 1) c) =
        (fun i (c : ImgCall) =>
          mkImageName md5hex pageTitle (k + (i + 1) + 1) c) := by
      funext i c
      congr 1
      omega
    rw [hfun]

/-- A concrete stand-in for the MD5 hex digest (always 32 hex chars). -/
def md5c : List Char → List Char := fun _ => List.replicate 32 'a'

/-- A concrete image call whose URL path carries a `.png` extension. -/
def sampleCall : ImgCall :=
  ⟨"http://x/img.png".data, ".png".data, false, []⟩

theorem decimalRepr_one : decimalRepr 1 = ['1'] := by
  unfold decimalRepr
  rw [if_neg (by decide), natDigitsAux_ne 1 (by decide) [], natDigitsAux_zero]
  decide

/-- C7 counterexample: `download_image` increments the counter *before*
building the name (line 345 precedes line 366), so the first image of a page
(counter reset to 0) is named with counter value 1, not 0 as claimed. -/
theorem C7_counterexample :
    runImageNames md5c "page".data [sampleCall] =
      ["page_image_aaaaaaaa_1.png".data] ∧
    ("page_image_aaaaaaaa_1.png".data : List Char) ≠
      "page_image_aaaaaaaa_0.png".data := by
  constructor
  · unfold runImageNames
    simp only [runImageNamesFrom, downloadImageStep]
    unfold mkImageName
    rw [show (0 : Nat) + 1 = 1 from rfl, decimalRepr_one]
    decide
  · decide

/-- C7 (amended): within one page's counter scope (counter reset to 0 at the
start of the page), the i-th `download_image` call (0-based) builds the name
`{sanitizedPageTitle}_image_{8-hex-char hash of URL}_{i+1}{extension}`: the
counter is incremented *before* the name is built, so the first image
carries counter value 1, the second 2, and so on. -/
theorem C7_image_name_counter (md5hex : List Char → List Char)
    (pageTitle : List Char) (calls : List ImgCall) :
    runImageNames md5hex pageTitle calls =
      calls.mapIdx (fun i c => mkImageName md5hex pageTitle (i + 1) c) := by
  unfold runImageNames
  rw [runImageNamesFrom_eq_mapIdx]
  congr 1
  funext i c
  congr 1
  omega

/-- Maximal-digit-prefix uniqueness: a digit string followed by a
non-digit-headed tail determines the digit string. -/
theorem digits_prefix_inj : ∀ (D₁ D₂ E₁ E₂ : List Char),
    (∀ c ∈ D₁, isDigitCh c = true) → (∀ c ∈ D₂, isDigitCh c = true) →
    (∀ a, E₁.head? = some a → isDigitCh a = false) →
    (∀ a, E₂.head? = some a → isDigitCh a = false) →
    D₁ ++ E₁ = D₂ ++ E₂ → D₁ = D₂ := by
  intro D₁
  induction D₁ with
  | nil =>
    intro D₂ E₁ E₂ _ h2 he1 _ heq
    cases D₂ with
    | nil => rfl
    | cons d D₂' =>
      simp only [List.nil_append, List.cons_append] at heq
      have hnd := he1 d (by rw [heq]; rfl)
      have hd := h2 d (by simp)
      rw [hd] at hnd
      cases hnd
  | cons d D₁' ih =>
    intro D₂ E₁ E₂ h1 h2 he1 he2 heq
    cases D₂ with
    | nil =>
      simp only [List.cons_append, List.nil_append] at heq
      have hnd := he2 d (by rw [← heq]; rfl)
      have hd := h1 d (by simp)
      rw [hd] at hnd
      cases hnd
    | cons e D₂' =>
      simp only [List.cons_append, List.cons.injEq] at heq
      obtain ⟨rfl, heq'⟩ := heq
      rw [ih D₂' E₁ E₂ (fun c hc => h1 c (List.mem_cons_of_mem _ hc))
        (fun c hc => h2 c (List.mem_cons_of_mem _ hc)) he1 he2 heq']

theorem deriveExt_head_not_digit (call : ImgCall) :
    ∀ a, (deriveExt call).head? = some a → isDigitCh a = false := by
  intro a h
  rw [deriveExt_eq] at h
  simp only [List.head?_cons, Option.some.injEq] at h
  rw [← h]
  decide

/-- Two names generated for the same page with different counter values are
built from different counters — extracting the maximal digit run after the
8-character hash block recovers the counter. -/
theorem mkImageName_inj_counter (md5hex : List Char → List Char)
    (h32 : ∀ s, (md5hex s).length = 32) (pageTitle : List Char)
    (i j : Nat) (ci cj : ImgCall)
    (h : mkImageName md5hex pageTitle i ci = mkImageName md5hex pageTitle j cj) :
    i = j := by
  unfold mkImageName at h
  simp only [List.append_assoc] at h
  have h2 := List.append_cancel_left h
  have h3 := List.append_cancel_left h2
  have hlen : ((md5hex ci.url).take 8).length = ((md5hex cj.url).take 8).length := by
    simp [List.length_take, h32]
  have h4 := (List.append_inj h3 hlen).2
  have h5 := List.append_cancel_left h4
  have hD := digits_prefix_inj (decimalRepr i) (decimalRepr j)
    (deriveExt ci) (deriveExt cj) (decimalRepr_digits i) (decimalRepr_digits j)
    (deriveExt_head_not_digit ci) (deriveExt_head_not_digit cj) h5
  exact decimalRepr_inj i j hD

/-- C8: the N local filenames generated by N sequential `download_image`
calls within one page's counter scope are pairwise distinct — even when two
calls share a URL or their truncated hashes collide — because each name
embeds a distinct counter value. -/
theorem C8_image_name_uniqueness (md5hex : List Char → List Char)
    (h32 : ∀ s, (md5hex s).length = 32) (pageTitle : List Char)
    (calls : List ImgCall) :
    (runImageNames md5hex pageTitle calls).Nodup := by
  unfold runImageNames
  rw [runImageNamesFrom_eq_mapIdx, List.mapIdx_eq_enum_map]
  apply List.Nodup.map_on
  · rintro ⟨i, ci⟩ hx ⟨j, cj⟩ hy hf
    simp only [Function.uncurry_apply_pair] at hf
    have hij : 0 + i + 1 = 0 + j + 1 :=
      mkImageName_inj_counter md5hex h32 pageTitle _ _ ci cj hf
    have hij' : i = j := by omega
    subst hij'
    have hgi := List.mk_mem_enum_iff_getElem?.mp hx
    have hgj := List.mk_mem_enum_iff_getElem?.mp hy
    rw [hgi] at hgj
    cases hgj
    rfl
  · exact List.Nodup.of_map Prod.fst (List.nodup_enum_map_fst calls)

/-- Witness for C8: two identical calls on one page still get distinct
names. -/
theorem C8_image_name_uniqueness_witness :
    (runImageNames md5c "page".data [sampleCall, sampleCall]).Nodup :=
  C8_image_name_uniqueness md5c (fun s => by simp [md5c]) "page".data
    [sampleCall, sampleCall]

/-! ### `get_pages` pagination loop (lines 157-216) -/

/-- One Graph API response to a page-listing request: the `value` batch and
the optional `@odata.count` total-count hint. -/
structure PageBatchResp (α : Type) where
  value : List α
  odataCount : Option Nat

/-- Python `if total_count and page_count < total_count`: `total_count` is
truthy (present and non-zero) and the running count is below it. -/
def contCond (pageCount : Nat) : Option Nat → Bool
  | some t => decide (t ≠ 0 ∧ pageCount < t)
  | none => false

/-- The `while True` pagination loop of `get_pages`: fetch the batch at the
current `$skip`; stop on an empty batch; otherwise accumulate, and continue
(advancing `skip` by the page size 100) only when the count hint is truthy
and the running count is below it.  `fuel` bounds the number of iterations;
`none` means the fuel ran out before the loop broke. -/
def getPagesLoop {α : Type} (fetch : Nat → PageBatchResp α) :
    Nat → Nat → Nat → List α → Option (List α)
  | 0, _, _, _ => none
  | fuel + 1, skip, pageCount, allPages =>
    if (fetch skip).value.isEmpty then some allPages
    else
      if contCond (pageCount + (fetch skip).value.length) (fetch skip).odataCount then
        getPagesLoop fetch fuel (skip + 100) (pageCount + (fetch skip).value.length)
          (allPages ++ (fetch skip).value)
      else some (allPages ++ (fetch skip).value)

/-- `get_pages` pagination entry point: `skip = 0`, `page_count = 0`,
`all_pages = []`. -/
def getPagesAll {α : Type} (fetch : Nat → PageBatchResp α) (fuel : Nat) :
    Option (List α) :=
  getPagesLoop fetch fuel 0 0 []

/-- The response the loop sees on its `k`-th iteration after starting at
`skip`. -/
def batchAt {α : Type} (fetch : Nat → PageBatchResp α) :
    Nat → Nat → PageBatchResp α
  | skip, 0 => fetch skip
  | skip, k + 1 => batchAt fetch (skip + 100) k

/-- Concatenation of the first `m` batches starting at `skip`. -/
def joinBatches {α : Type} (fetch : Nat → PageBatchResp α) :
    Nat → Nat → List α
  | _, 0 => []
  | skip, m + 1 => (fetch skip).value ++ joinBatches fetch (skip + 100) m

/-- A server whose batches are non-empty but carry no `@odata.count` hint. -/
def noCountFetch : Nat → PageBatchResp Nat :=
  fun skip => if skip = 0 then ⟨[1], none⟩ else ⟨[2], none⟩

/-- C1 counterexample: when the first response carries no total-count hint,
`get_pages` breaks out of the loop after that single non-empty batch — it
does *not* keep fetching until an empty batch, so the page in the second
(non-empty) batch is omitted. -/
theorem C1_counterexample :
    getPagesAll noCountFetch 10 = some [1] ∧
    (noCountFetch 100).value = [2] ∧
    (2 : Nat) ∉ ([1] : List Nat) := by
  exact ⟨by decide, by decide, by decide⟩

/-- C1 (amended): whenever the pagination loop returns, it has consumed
exactly the batches of iterations `0..k` for some `k`: every earlier
iteration saw a non-empty batch with a truthy count hint strictly above the
running count, and iteration `k` stopped because its batch was empty, or its
count hint was absent or zero, or the running count reached the advertised
total.  The result is the concatenation of the consumed batches (each
iteration advancing `skip` by the batch size 100). -/
theorem C1_pagination_loop (fetch : Nat → PageBatchResp Nat) :
    ∀ (fuel skip count : Nat) (acc res : List Nat),
    getPagesLoop fetch fuel skip count acc = some res →
    ∃ k, res = acc ++ joinBatches fetch skip (k + 1) ∧
      ((batchAt fetch skip k).value = [] ∨
        contCond (count + (joinBatches fetch skip (k + 1)).length)
          (batchAt fetch skip k).odataCount = false) ∧
      (∀ j < k, (batchAt fetch skip j).value ≠ [] ∧
        contCond (count + (joinBatches fetch skip (j + 1)).length)
          (batchAt fetch skip j).odataCount = true) := by
  intro fuel
  induction fuel with
  | zero =>
    intro skip count acc res h
    rw [getPagesLoop] at h
    cases h
  | succ fuel ih =>
    intro skip count acc res h
    rw [getPagesLoop] at h
    by_cases hemp : (fetch skip).value = []
    · rw [if_pos (List.isEmpty_iff.mpr hemp)] at h
      cases h
      refine ⟨0, ?_, Or.inl (by rw [batchAt]; exact hemp), fun j hj => by omega⟩
      rw [joinBatches, joinBatches, hemp]
      simp
    · rw [if_neg (by simpa [List.isEmpty_iff] using hemp)] at h
      by_cases hcont :
          contCond (count + (fetch skip).value.length) (fetch skip).odataCount
      · rw [if_pos hcont] at h
        obtain ⟨k', hres, hstop, hprev⟩ := ih (skip + 100)
          (count + (fetch skip).value.length) (acc ++ (fetch skip).value) res h
        have hjoin : ∀ m, joinBatches fetch skip (m + 1) =
            (fetch skip).value ++ joinBatches fetch (skip + 100) m := by
          intro m
          rw [joinBatches]
        have hbatch : ∀ m, batchAt fetch skip (m + 1) =
            batchAt fetch (skip + 100) m := by
          intro m
          rw [batchAt]
        have hlen : ∀ m, (joinBatches fetch skip (m + 1)).length =
            (fetch skip).value.length + (joinBatches fetch (skip + 100) m).length := by
          intro m
          rw [hjoin m, List.length_append]
        refine ⟨k' + 1, ?_, ?_, ?_⟩
        · rw [hres, hjoin (k' + 1), List.append_assoc]
        · rw [hbatch k', hlen (k' + 1)]
          rcases hstop with hs | hs
          · exact Or.inl hs
          · refine Or.inr ?_
            rw [← hs]
            congr 1
            omega
        · intro j hj
          cases j with
          | zero =>
            refine ⟨by rw [batchAt]; exact hemp, ?_⟩
            rw [batchAt, hlen 0]
            rw [joinBatches]
            simpa using hcont
          | succ j' =>
            have hj' : j' < k' := by omega
            obtain ⟨hne, hc⟩ := hprev j' hj'
            refine ⟨by rw [hbatch j']; exact hne, ?_⟩
            rw [hbatch j', hlen (j' + 1), ← hc]
            congr 1
            omega
      · rw [if_neg hcont] at h
        cases h
        refine ⟨0, ?_, Or.inr ?_, ?_⟩
        · rw [joinBatches, joinBatches]
          simp
        · rw [batchAt, joinBatches, joinBatches]
          simpa using hcont
        · intro j hj
          omega

/-- Witness for C1's amended theorem: on the no-count-hint server the loop
returns after consuming exactly one batch. -/
theorem C1_pagination_loop_witness :
    ∃ k, ([1] : List Nat) = [] ++ joinBatches noCountFetch 0 (k + 1) ∧
      ((batchAt noCountFetch 0 k).value = [] ∨
        contCond (0 + (joinBatches noCountFetch 0 (k + 1)).length)
          (batchAt noCountFetch 0 k).odataCount = false) ∧
      (∀ j < k, (batchAt noCountFetch 0 j).value ≠ [] ∧
        contCond (0 + (joinBatches noCountFetch 0 (j + 1)).length)
          (batchAt noCountFetch 0 j).odataCount = true) :=
  C1_pagination_loop noCountFetch 10 0 0 [] [1] (by decide)

/-! ### Page tree builder (`get_pages`, lines 220-253) -/

/-- A flat page record: `$select=id,title,level,order` (title is irrelevant
to tree building). -/
structure PageRec where
  id : String
  level : Nat
  order : Int
deriving DecidableEq

instance : Inhabited PageRec := ⟨⟨"", 0, 0⟩⟩

/-- Python tuple `(order, level)` comparison: key of `a` ≤ key of `b`. -/
def keyLE (a b : PageRec) : Bool :=
  a.order < b.order || (a.order = b.order && a.level ≤ b.level)

/-- Stable insertion: `x` goes after every element whose key is ≤ its key. -/
def insertSorted (x : PageRec) : List PageRec → List PageRec
  | [] => [x]
  | y :: ys => if keyLE y x then y :: insertSorted x ys else x :: y :: ys

/-- `all_pages.sort(key=lambda x: (x['order'], x['level']))` — Python's sort
is stable, and the stable sort is the unique key-ordered, tie-order
preserving permutation, computed here by stable insertion sort. -/
def sortPages (l : List PageRec) : List PageRec :=
  l.foldl (fun acc x => insertSorted x acc) []

/-- `page_map[page_id] = page` with Python `dict` semantics: updating an
existing key keeps its position; a new key is appended.  Entries are
`(id, processing index, level)`. -/
def dictInsert (m : List (String × Nat × Nat)) (k : String) (idx lvl : Nat) :
    List (String × Nat × Nat) :=
  if m.any (fun e => e.1 = k) then
    m.map (fun e => if e.1 = k then (k, idx, lvl) else e)
  else m ++ [(k, idx, lvl)]

/-- The reverse scan `for prev_page in reversed(list(page_map.values()))`
looking for the first value with the wanted level. -/
def findParentIdx (m : List (String × Nat × Nat)) (lvl : Nat) : Option Nat :=
  (m.reverse.find? (fun e => e.2.2 = lvl)).map (fun e => e.2.1)

/-- The processing loop: for the record at index `i`, insert it into the
dict first, then a level-0 record is a root (`none`) and a level-L record's
parent is found by the reverse scan for level L-1 (`none` when absent:
demoted to root). -/
def buildParentsAux : List PageRec → Nat → List (String × Nat × Nat) →
    List (Option Nat)
  | [], _, _ => []
  | p :: rest, i, m =>
    (if p.level = 0 then none else findParentIdx (dictInsert m p.id i p.level) (p.level - 1)) ::
      buildParentsAux rest (i + 1) (dictInsert m p.id i p.level)

/-- Parent assignment (index into the sorted list, or `none` for a root)
for every record of the sorted input. -/
def buildParents (l : List PageRec) : List (Option Nat) :=
  buildParentsAux (sortPages l) 0 []

/-- Indices appended to `root_pages`, in processing order. -/
def rootIdxs (parents : List (Option Nat)) : List Nat :=
  (List.range parents.length).filter (fun i => parents.getD i none = none)

/-- Indices appended to `parent['children']` of the record at index `j`, in
processing order. -/
def childIdxs (parents : List (Option Nat)) (j : Nat) : List Nat :=
  (List.range parents.length).filter (fun i => parents.getD i none = some j)

/-- A materialized page tree (a page dict with its `children` list). -/
inductive PTree where
  | node (rec : PageRec) (children : List PTree)

/-- Materialize the subtree rooted at index `i` (fuel-bounded; fuel
`parents.length` suffices because a child's index always exceeds its
parent's). -/
def buildTreeF (sorted : List PageRec) (parents : List (Option Nat)) :
    Nat → Nat → PTree
  | 0, i => .node (sorted.getD i default) []
  | fuel + 1, i =>
    .node (sorted.getD i default)
      ((childIdxs parents i).map (buildTreeF sorted parents fuel))

/-- The `root_pages` forest returned by `get_pages`. -/
def buildForest (l : List PageRec) : List PTree :=
  (rootIdxs (buildParents l)).map
    (buildTreeF (sortPages l) (buildParents l) (buildParents l).length)

/-- Index lists of the subtree rooted at `i` (pre-order). -/
def subtreeIdxs (parents : List (Option Nat)) : Nat → Nat → List Nat
  | 0, i => [i]
  | fuel + 1, i =>
    i :: ((childIdxs parents i).map (subtreeIdxs parents fuel)).flatten

/-- Pre-order index list of the whole forest. -/
def forestIdxs (parents : List (Option Nat)) : List Nat :=
  ((rootIdxs parents).map (subtreeIdxs parents parents.length)).flatten

/-- Pre-order record list of a materialized tree. -/
def flattenT : PTree → List PageRec
  | .node r cs => r :: (cs.attach.map (fun ⟨c, _⟩ => flattenT c)).flatten

theorem flattenT_node (r : PageRec) (cs : List PTree) :
    flattenT (.node r cs) = r :: (cs.map flattenT).flatten := by
  rw [flattenT]
  simp only [List.attach_map_coe]

theorem buildParentsAux_length : ∀ (rest : List PageRec) (i : Nat)
    (m : List (String × Nat × Nat)),
    (buildParentsAux rest i m).length = rest.length := by
  intro rest
  induction rest with
  | nil => intro i m; rfl
  | cons p rest' ih =>
    intro i m
    rw [buildParentsAux]
    simp [ih]

theorem insertSorted_perm (x : PageRec) : ∀ l : List PageRec,
    (insertSorted x l).Perm (x :: l) := by
  intro l
  induction l with
  | nil => rfl
  | cons y ys ih =>
    rw [insertSorted]
    by_cases h : keyLE y x
    · rw [if_pos h]
      exact (ih.cons y).trans (List.Perm.swap x y ys)
    · rw [if_neg h]

theorem sortPages_perm (l : List PageRec) : (sortPages l).Perm l := by
  suffices h : ∀ (acc : List PageRec) (l : List PageRec),
      (l.foldl (fun acc x => insertSorted x acc) acc).Perm (acc ++ l) by
    simpa using h [] l
  intro acc l
  induction l generalizing acc with
  | nil => simp
  | cons x xs ih =>
    rw [List.foldl_cons]
    exact (ih (insertSorted x acc)).trans
      (((insertSorted_perm x acc).append_right xs).trans List.perm_middle.symm)

theorem dictInsert_mem (m : List (String × Nat × Nat)) (k : String)
    (idx lvl : Nat) (e : String × Nat × Nat) (he : e ∈ dictInsert m k idx lvl) :
    e ∈ m ∨ e = (k, idx, lvl) := by
  unfold dictInsert at he
  by_cases h : m.any (fun e => e.1 = k)
  · rw [if_pos h] at he
    obtain ⟨a, ha, hae⟩ := List.mem_map.mp he
    by_cases hk : a.1 = k
    · rw [if_pos hk] at hae
      exact Or.inr hae.symm
    · rw [if_neg hk] at hae
      exact Or.inl (hae ▸ ha)
  · rw [if_neg h] at he
    rcases List.mem_append.mp he with h' | h'
    · exact Or.inl h'
    · simp at h'
      exact Or.inr h'

/-- The matched dict value of a parent scan for level `L-1` at step `i` was
processed strictly before `i`: the only entry with index `i` is the current
record, whose level `L` cannot equal `L-1`. -/
theorem buildParentsAux_parent_lt : ∀ (rest : List PageRec) (i : Nat)
    (m : List (String × Nat × Nat)), (∀ e ∈ m, e.2.1 < i) →
    ∀ (k j : Nat), (buildParentsAux rest i m).get? k = some (some j) →
    j < i + k := by
  intro rest
  induction rest with
  | nil =>
    intro i m _ k j h
    simp [buildParentsAux] at h
  | cons p rest' ih =>
    intro i m hm k j h
    have hm' : ∀ e ∈ dictInsert m p.id i p.level,
        e.2.1 < i + 1 ∧ (e.2.1 = i → e.2.2 = p.level) := by
      intro e he
      rcases dictInsert_mem m p.id i p.level e he with h' | h'
      · have := hm e h'
        exact ⟨by omega, fun hi => absurd hi (by omega)⟩
      · rw [h']
        exact ⟨by show i < i + 1; omega, fun _ => rfl⟩
    rw [buildParentsAux] at h
    cases k with
    | zero =>
      simp only [List.get?_cons_zero, Option.some.injEq] at h
      by_cases hl : p.level = 0
      · rw [if_pos hl] at h
        cases h
      · rw [if_neg hl] at h
        unfold findParentIdx at h
        obtain ⟨e, he, hej⟩ := Option.map_eq_some'.mp h
        have hmem : e ∈ dictInsert m p.id i p.level :=
          List.mem_reverse.mp (List.mem_of_find?_eq_some he)
        have hpred := List.find?_some he
        simp only [decide_eq_true_eq] at hpred
        obtain ⟨hlt, heq⟩ := hm' e hmem
        by_cases hei : e.2.1 = i
        · have := heq hei
          rw [this] at hpred
          omega
        · omega
    | succ k' =>
      simp only [List.get?_cons_succ] at h
      have := ih (i + 1) (dictInsert m p.id i p.level)
        (fun e he => (hm' e he).1) k' j h
      omega

/-- The spec's reference algorithm (§4.5), translated literally: walk the
sorted records keeping a plain list of the already-seen `(index, level)`
pairs; a level-0 record is a root; a level-L record's parent is the most
recently processed record at level L-1, found by scanning the already-seen
records in reverse insertion order; absent a match, the record is demoted to
a root. -/
def specParentsAux : List PageRec → Nat → List (Nat × Nat) → List (Option Nat)
  | [], _, _ => []
  | p :: rest, i, seen =>
    (if p.level = 0 then none
     else (seen.reverse.find? (fun e => e.2 = p.level - 1)).map (fun e => e.1)) ::
      specParentsAux rest (i + 1) (seen ++ [(i, p.level)])

/-- Parent assignment under the spec's reference algorithm. -/
def specParents (l : List PageRec) : List (Option Nat) :=
  specParentsAux (sortPages l) 0 []

theorem buildParentsAux_eq_spec : ∀ (rest : List PageRec) (i : Nat)
    (m : List (String × Nat × Nat)) (seen : List (Nat × Nat)),
    m.map (fun e => e.2) = seen →
    (∀ r ∈ rest, ∀ e ∈ m, r.id ≠ e.1) →
    (rest.map (fun p => p.id)).Nodup →
    buildParentsAux rest i m = specParentsAux rest i seen := by
  intro rest
  induction rest with
  | nil => intro i m seen _ _ _; rfl
  | cons p rest' ih =>
    intro i m seen hms hfresh hnd
    have happ : dictInsert m p.id i p.level = m ++ [(p.id, i, p.level)] := by
      unfold dictInsert
      rw [if_neg ?_]
      simp only [List.any_eq_true, decide_eq_true_eq, not_exists, not_and]
      intro e he hek
      exact hfresh p (List.mem_cons_self p rest') e he hek.symm
    rw [buildParentsAux, specParentsAux, happ]
    have hrev : (m ++ [(p.id, i, p.level)]).reverse =
        (p.id, i, p.level) :: m.reverse := by simp
    congr 1
    · by_cases hl : p.level = 0
      · rw [if_pos hl, if_pos hl]
      · rw [if_neg hl, if_neg hl]
        unfold findParentIdx
        rw [hrev, List.find?_cons_of_neg _ (by
          simp only [decide_eq_true_eq]
          omega)]
        rw [← hms, ← List.map_reverse, List.find?_map]
        rw [Option.map_map]
        rfl
    · apply ih
      · rw [List.map_append, hms]
        rfl
      · intro r hr e he
        rcases List.mem_append.mp he with h' | h'
        · exact hfresh r (List.mem_cons_of_mem p hr) e h'
        · simp only [List.mem_singleton] at h'
          subst h'
          simp only [List.map_cons, List.nodup_cons, List.mem_map] at hnd
          intro hre
          exact hnd.1 ⟨r, hr, hre⟩
      · simp only [List.map_cons, List.nodup_cons] at hnd
        exact hnd.2

/-- Record 1 of the spec's tree example. -/
def exRec1 : PageRec := ⟨"1", 0, 0⟩

/-- Record 2 of the spec's tree example. -/
def exRec2 : PageRec := ⟨"2", 1, 1⟩

/-- Record 3 of the spec's tree example. -/
def exRec3 : PageRec := ⟨"3", 1, 2⟩

/-- Record 4 of the spec's tree example. -/
def exRec4 : PageRec := ⟨"4", 0, 3⟩

/-- The orphan example: a level-2 record with no level-1 ancestor. -/
def orphanRec : PageRec := ⟨"1", 2, 0⟩

/-- C2: the tree builder computes the spec's reference algorithm (for inputs
with pairwise-distinct ids — the Graph API never repeats a page id; with
distinct ids the id-keyed dict scan coincides with the reference scan over
all previously-processed records), and the two concrete examples of the spec
hold: the four-record input yields roots 1 and 4 with node 1's children
`[2, 3]`, and the single level-2 orphan becomes a root without failing. -/
theorem C2_tree_builder (l : List PageRec)
    (hids : (l.map (fun p => p.id)).Nodup) :
    buildParents l = specParents l ∧
    buildForest [exRec1, exRec2, exRec3, exRec4] =
      [.node exRec1 [.node exRec2 [], .node exRec3 []], .node exRec4 []] ∧
    buildForest [orphanRec] = [.node orphanRec []] := by
  refine ⟨?_, rfl, rfl⟩
  unfold buildParents specParents
  apply buildParentsAux_eq_spec (sortPages l) 0 [] [] rfl (by simp)
  exact ((sortPages_perm l).map (fun p => p.id)).nodup_iff.mpr hids

/-- Witness for C2 at the spec's four-record example. -/
theorem C2_tree_builder_witness :
    buildParents [exRec1, exRec2, exRec3, exRec4] =
      specParents [exRec1, exRec2, exRec3, exRec4] :=
  (C2_tree_builder [exRec1, exRec2, exRec3, exRec4] (by decide)).1

/-- `i` is an ancestor of `k` (or `k` itself) along the parent assignment. -/
inductive IsAnc (parents : List (Option Nat)) : Nat → Nat → Prop
  | refl (k : Nat) : IsAnc parents k k
  | step (i p k : Nat) : parents.getD k none = some p → IsAnc parents i p →
      IsAnc parents i k

theorem getD_some_lt (parents : List (Option Nat)) (k p : Nat)
    (h : parents.getD k none = some p) : k < parents.length := by
  by_contra hk
  rw [List.getD_eq_getElem?_getD, List.getElem?_eq_none (by omega)] at h
  cases h

theorem mem_childIdxs (parents : List (Option Nat)) (j i : Nat) :
    i ∈ childIdxs parents j ↔
      i < parents.length ∧ parents.getD i none = some j := by
  unfold childIdxs
  simp [List.mem_filter, List.mem_range]

theorem mem_rootIdxs (parents : List (Option Nat)) (i : Nat) :
    i ∈ rootIdxs parents ↔ i < parents.length ∧ parents.getD i none = none := by
  unfold rootIdxs
  simp [List.mem_filter, List.mem_range]

theorem IsAnc_le (parents : List (Option Nat))
    (hpar : ∀ k p, parents.getD k none = some p → p < k) :
    ∀ i k, IsAnc parents i k → i ≤ k := by
  intro i k h
  induction h with
  | refl => exact Nat.le_refl _
  | step p k hpk _ ih =>
    have := hpar k p hpk
    omega

theorem IsAnc_trans (parents : List (Option Nat)) :
    ∀ i j k, IsAnc parents i j → IsAnc parents j k → IsAnc parents i k := by
  intro i j k hij hjk
  induction hjk with
  | refl => exact hij
  | step p k' hpk _ ih => exact IsAnc.step _ p k' hpk ih

theorem IsAnc_inv (parents : List (Option Nat)) (b k : Nat)
    (h : IsAnc parents b k) :
    b = k ∨ ∃ p, parents.getD k none = some p ∧ IsAnc parents b p := by
  cases h with
  | refl => exact Or.inl rfl
  | step p _ h1 h2 => exact Or.inr ⟨p, h1, h2⟩

theorem IsAnc_comparable (parents : List (Option Nat)) :
    ∀ a k, IsAnc parents a k → ∀ b, IsAnc parents b k →
    IsAnc parents a b ∨ IsAnc parents b a := by
  intro a k hak
  induction hak with
  | refl =>
    intro b hbk
    exact Or.inr hbk
  | step p k hpk hap ih =>
    intro b hbk
    rcases IsAnc_inv parents b k hbk with rfl | ⟨p', hpk', hbp'⟩
    · exact Or.inl (IsAnc.step _ p _ hpk hap)
    · have hpp : p = p' := by
        rw [hpk] at hpk'
        exact Option.some.inj hpk'
      subst hpp
      exact ih b hbp'

theorem root_reaches (parents : List (Option Nat))
    (hpar : ∀ k p, parents.getD k none = some p → p < k) :
    ∀ k, k < parents.length →
    ∃ r, r ∈ rootIdxs parents ∧ IsAnc parents r k := by
  intro k
  induction k using Nat.strong_induction_on with
  | _ k ih =>
    intro hk
    cases hp : parents.getD k none with
    | none =>
      exact ⟨k, (mem_rootIdxs parents k).mpr ⟨hk, hp⟩, IsAnc.refl k⟩
    | some p =>
      have hpk := hpar k p hp
      obtain ⟨r, hr, hanc⟩ := ih p hpk (by omega)
      exact ⟨r, hr, IsAnc.step r p k hp hanc⟩

theorem root_unique (parents : List (Option Nat)) :
    ∀ r₁ r₂ k, r₁ ∈ rootIdxs parents → r₂ ∈ rootIdxs parents →
    IsAnc parents r₁ k → IsAnc parents r₂ k → r₁ = r₂ := by
  have hroot : ∀ r₁ r₂, r₂ ∈ rootIdxs parents → IsAnc parents r₁ r₂ → r₁ = r₂ := by
    intro r₁ r₂ hr₂ h
    rcases IsAnc_inv parents r₁ r₂ h with rfl | ⟨p, hp, _⟩
    · rfl
    · rw [((mem_rootIdxs parents r₂).mp hr₂).2] at hp
      cases hp
  intro r₁ r₂ k hr₁ hr₂ h₁ h₂
  rcases IsAnc_comparable parents r₁ k h₁ r₂ h₂ with h | h
  · exact hroot r₁ r₂ hr₂ h
  · exact (hroot r₂ r₁ hr₁ h).symm

theorem child_on_chain_unique (parents : List (Option Nat))
    (hpar : ∀ k p, parents.getD k none = some p → p < k) :
    ∀ i j₁ j₂ k, j₁ ∈ childIdxs parents i → j₂ ∈ childIdxs parents i →
    IsAnc parents j₁ k → IsAnc parents j₂ k → j₁ = j₂ := by
  have hchild : ∀ i j₁ j₂, j₂ ∈ childIdxs parents i →
      parents.getD j₁ none = some i → IsAnc parents j₁ j₂ → j₁ = j₂ := by
    intro i j₁ j₂ hj₂ hp₁ h
    rcases IsAnc_inv parents j₁ j₂ h with rfl | ⟨p, hp, hanc⟩
    · rfl
    · rw [((mem_childIdxs parents i j₂).mp hj₂).2] at hp
      cases hp
      have h₁ := IsAnc_le parents hpar _ _ hanc
      have h₂ := hpar j₁ i hp₁
      omega
  intro i j₁ j₂ k hj₁ hj₂ h₁ h₂
  rcases IsAnc_comparable parents j₁ k h₁ j₂ h₂ with h | h
  · exact hchild i j₁ j₂ hj₂ ((mem_childIdxs parents i j₁).mp hj₁).2 h
  · exact (hchild i j₂ j₁ hj₁ ((mem_childIdxs parents i j₂).mp hj₂).2 h).symm

theorem child_on_chain_exists (parents : List (Option Nat)) :
    ∀ i k, IsAnc parents i k → i ≠ k →
    ∃ j, j ∈ childIdxs parents i ∧ IsAnc parents j k := by
  intro i k h
  induction h with
  | refl => intro h; exact absurd rfl h
  | step p k hpk hip ih =>
    intro _
    by_cases hpi : i = p
    · subst hpi
      refine ⟨k, (mem_childIdxs parents i k).mpr
        ⟨getD_some_lt parents k i hpk, hpk⟩, IsAnc.refl k⟩
    · obtain ⟨j, hj, hjp⟩ := ih (fun he => hpi he)
      exact ⟨j, hj, IsAnc.step j p k hpk hjp⟩

theorem no_child_on_chain_self (parents : List (Option Nat))
    (hpar : ∀ k p, parents.getD k none = some p → p < k) :
    ∀ i j, j ∈ childIdxs parents i → ¬ IsAnc parents j i := by
  intro i j hj hanc
  have h₁ := IsAnc_le parents hpar _ _ hanc
  have h₂ := hpar j i ((mem_childIdxs parents i j).mp hj).2
  omega

theorem no_child_on_chain_of_not (parents : List (Option Nat)) :
    ∀ i k j, ¬ IsAnc parents i k → j ∈ childIdxs parents i →
    ¬ IsAnc parents j k := by
  intro i k j hik hj hjk
  apply hik
  refine IsAnc_trans parents i j k ?_ hjk
  exact IsAnc.step i i j ((mem_childIdxs parents i j).mp hj).2 (IsAnc.refl i)

theorem sum_map_zero {α : Type} (l : List α) (f : α → Nat)
    (h : ∀ j ∈ l, f j = 0) : (l.map f).sum = 0 := by
  induction l with
  | nil => rfl
  | cons a l' ih =>
    rw [List.map_cons, List.sum_cons, h a (by simp),
      ih (fun j hj => h j (List.mem_cons_of_mem a hj))]

theorem sum_map_indicator (l : List Nat) (f : Nat → Nat) (j₀ : Nat)
    (hnd : l.Nodup) (hj₀ : j₀ ∈ l) (h1 : f j₀ = 1)
    (h0 : ∀ j ∈ l, j ≠ j₀ → f j = 0) : (l.map f).sum = 1 := by
  induction l with
  | nil => cases hj₀
  | cons a l' ih =>
    rw [List.map_cons, List.sum_cons]
    rcases List.mem_cons.mp hj₀ with rfl | hj₀'
    · rw [h1, sum_map_zero l' f (fun j hj => h0 j (List.mem_cons_of_mem _ hj)
        (fun he => (List.nodup_cons.mp hnd).1 (he ▸ hj)))]
    · rw [h0 a (by simp) (fun he => (List.nodup_cons.mp hnd).1 (he ▸ hj₀')),
        ih (List.nodup_cons.mp hnd).2 hj₀'
          (fun j hj => h0 j (List.mem_cons_of_mem _ hj))]

theorem childIdxs_nodup (parents : List (Option Nat)) (i : Nat) :
    (childIdxs parents i).Nodup :=
  (List.nodup_range _).filter _

theorem rootIdxs_nodup (parents : List (Option Nat)) :
    (rootIdxs parents).Nodup :=
  (List.nodup_range _).filter _

/-- Core counting argument: a subtree (with enough fuel) contains each index
`k` exactly once when its root is an ancestor-or-self of `k`, and not at all
otherwise. -/
theorem count_subtreeIdxs (parents : List (Option Nat))
    (hpar : ∀ k p, parents.getD k none = some p → p < k) :
    ∀ (fuel i : Nat), i < parents.length → parents.length - i ≤ fuel →
    ∀ k, (IsAnc parents i k → (subtreeIdxs parents fuel i).count k = 1) ∧
         (¬ IsAnc parents i k → (subtreeIdxs parents fuel i).count k = 0) := by
  intro fuel
  induction fuel with
  | zero =>
    intro i hi hf
    exact absurd hf (by omega)
  | succ fuel ih =>
    intro i hi hf k
    have hchildprops : ∀ j ∈ childIdxs parents i,
        j < parents.length ∧ parents.length - j ≤ fuel := by
      intro j hj
      obtain ⟨hjn, hjp⟩ := (mem_childIdxs parents i j).mp hj
      have := hpar j i hjp
      exact ⟨hjn, by omega⟩
    have hcount : (subtreeIdxs parents (fuel + 1) i).count k =
        ((childIdxs parents i).map
          (fun j => (subtreeIdxs parents fuel j).count k)).sum +
        (if i = k then 1 else 0) := by
      rw [subtreeIdxs, List.count_cons, List.count_flatten, List.map_map]
      simp only [Function.comp, beq_iff_eq]
      rfl
    constructor
    · intro hik
      by_cases hk : k = i
      · subst hk
        rw [hcount, if_pos rfl]
        rw [sum_map_zero _ _ (fun j hj =>
          (ih j (hchildprops j hj).1 (hchildprops j hj).2 k).2
            (no_child_on_chain_self parents hpar k j hj))]
      · obtain ⟨j₀, hj₀, hj₀k⟩ :=
          child_on_chain_exists parents i k hik (fun he => hk he.symm)
        rw [hcount, if_neg (fun he => hk he.symm)]
        rw [sum_map_indicator (childIdxs parents i) _ j₀
          (childIdxs_nodup parents i) hj₀
          ((ih j₀ (hchildprops j₀ hj₀).1 (hchildprops j₀ hj₀).2 k).1 hj₀k)
          (fun j hj hne =>
            (ih j (hchildprops j hj).1 (hchildprops j hj).2 k).2
              (fun hjk => hne
                (child_on_chain_unique parents hpar i j j₀ k hj hj₀ hjk hj₀k)))]
    · intro hnik
      have hk : ¬ i = k := fun he => hnik (he ▸ IsAnc.refl i)
      rw [hcount, if_neg hk]
      rw [sum_map_zero _ _ (fun j hj =>
        (ih j (hchildprops j hj).1 (hchildprops j hj).2 k).2
          (no_child_on_chain_of_not parents i k j hnik hj))]

theorem count_forestIdxs_one (parents : List (Option Nat))
    (hpar : ∀ k p, parents.getD k none = some p → p < k)
    (k : Nat) (hk : k < parents.length) :
    (forestIdxs parents).count k = 1 := by
  unfold forestIdxs
  rw [List.count_flatten, List.map_map]
  obtain ⟨r, hr, hanc⟩ := root_reaches parents hpar k hk
  have hrn : r < parents.length := ((mem_rootIdxs parents r).mp hr).1
  refine sum_map_indicator _ _ r (rootIdxs_nodup parents) hr ?_ ?_
  · exact (count_subtreeIdxs parents hpar parents.length r hrn (by omega) k).1 hanc
  · intro r' hr' hne
    have hr'n : r' < parents.length := ((mem_rootIdxs parents r').mp hr').1
    refine (count_subtreeIdxs parents hpar parents.length r' hr'n (by omega) k).2 ?_
    intro h'
    exact hne (root_unique parents r' r k hr' hr h' hanc)

theorem mem_subtreeIdxs_lt (parents : List (Option Nat)) :
    ∀ (fuel i : Nat), i < parents.length →
    ∀ x ∈ subtreeIdxs parents fuel i, x < parents.length := by
  intro fuel
  induction fuel with
  | zero =>
    intro i hi x hx
    rw [subtreeIdxs] at hx
    simp at hx
    omega
  | succ fuel ih =>
    intro i hi x hx
    rw [subtreeIdxs] at hx
    rcases List.mem_cons.mp hx with rfl | hx'
    · exact hi
    · obtain ⟨s, hs, hxs⟩ := List.mem_flatten.mp hx'
      obtain ⟨j, hj, hjs⟩ := List.mem_map.mp hs
      exact ih j ((mem_childIdxs parents i j).mp hj).1 x (hjs ▸ hxs)

theorem count_forestIdxs_zero (parents : List (Option Nat))
    (k : Nat) (hk : ¬ k < parents.length) :
    (forestIdxs parents).count k = 0 := by
  rw [List.count_eq_zero]
  intro hmem
  unfold forestIdxs at hmem
  obtain ⟨s, hs, hks⟩ := List.mem_flatten.mp hmem
  obtain ⟨r, hr, hrs⟩ := List.mem_map.mp hs
  exact hk (mem_subtreeIdxs_lt parents parents.length r
    ((mem_rootIdxs parents r).mp hr).1 k (hrs ▸ hks))

theorem flattenT_buildTreeF (sorted : List PageRec)
    (parents : List (Option Nat)) : ∀ (fuel i : Nat),
    flattenT (buildTreeF sorted parents fuel i) =
      (subtreeIdxs parents fuel i).map (fun t => sorted.getD t default) := by
  intro fuel
  induction fuel with
  | zero =>
    intro i
    rw [buildTreeF, subtreeIdxs, flattenT_node]
    simp
  | succ fuel ih =>
    intro i
    rw [buildTreeF, subtreeIdxs, flattenT_node]
    simp only [List.map_cons, List.map_map, List.map_flatten]
    congr 2
    apply List.map_congr_left
    intro j _
    exact ih j

theorem getD_to_get? (parents : List (Option Nat)) (k p : Nat)
    (h : parents.getD k none = some p) : parents.get? k = some (some p) := by
  rw [List.get?_eq_getElem?]
  rw [List.getD_eq_getElem?_getD] at h
  cases ho : parents[k]? with
  | none => rw [ho] at h; cases h
  | some o =>
    rw [ho] at h
    simp at h
    rw [h]

/-- C10: every record of the flat input appears exactly once in the forest
returned by the tree builder.  A chosen parent always has a strictly smaller
processing index than its child (so the parent relation is acyclic); the
pre-order index traversal of the forest is a permutation of all record
indices; and the flattened materialized forest is exactly those records. -/
theorem C10_records_exactly_once (l : List PageRec) :
    (∀ k p, (buildParents l).getD k none = some p → p < k) ∧
    (forestIdxs (buildParents l)).Perm (List.range l.length) ∧
    ((buildForest l).map flattenT).flatten =
      (forestIdxs (buildParents l)).map (fun t => (sortPages l).getD t default) := by
  have hlen : (buildParents l).length = l.length := by
    unfold buildParents
    rw [buildParentsAux_length]
    exact (sortPages_perm l).length_eq
  have hpar : ∀ k p, (buildParents l).getD k none = some p → p < k := by
    intro k p h
    have h' := getD_to_get? _ k p h
    have := buildParentsAux_parent_lt (sortPages l) 0 [] (by simp) k p h'
    omega
  refine ⟨hpar, ?_, ?_⟩
  · rw [List.perm_iff_count]
    intro a
    by_cases ha : a < (buildParents l).length
    · rw [count_forestIdxs_one _ hpar a ha,
        List.count_eq_one_of_mem (List.nodup_range _)
          (List.mem_range.mpr (hlen ▸ ha))]
    · rw [count_forestIdxs_zero _ a ha]
      exact (List.count_eq_zero.mpr
        (fun hm => ha (hlen ▸ List.mem_range.mp hm))).symm
  · unfold buildForest forestIdxs
    rw [List.map_map, List.map_flatten, List.map_map]
    congr 1
    apply List.map_congr_left
    intro r _
    exact flattenT_buildTreeF (sortPages l) (buildParents l)
      (buildParents l).length r

/-- Witness for C10 at the spec's four-record example. -/
theorem C10_records_exactly_once_witness :
    (forestIdxs (buildParents [exRec1, exRec2, exRec3, exRec4])).Perm
      (List.range 4) := by
  have := (C10_records_exactly_once [exRec1, exRec2, exRec3, exRec4]).2.1
  simpa using this

/-! ### Directory layout (`process_page` lines 478-508, `collect_pages`
lines 597-611) -/

/-- A page with a title and child pages, as consumed by the orchestrator. -/
inductive PgTree where
  | node (title : String) (children : List PgTree)

/-- Title of a page. -/
def PgTree.title : PgTree → String
  | .node t _ => t

/-- Children of a page. -/
def PgTree.children : PgTree → List PgTree
  | .node _ cs => cs

/-- `collect_pages(page, parent_dir)`: emit the `(page, parent_dir)` task,
then recurse into the children with `page_dir` = a directory named after the
page under the section for a top-level page, or the *unchanged* parent
directory for a child page. -/
def collectPages (sectionPath : List String) :
    PgTree → Option (List String) → List (PgTree × Option (List String))
  | .node t cs, parentDir =>
    (.node t cs, parentDir) ::
      (cs.attach.map (fun ⟨c, _⟩ => collectPages sectionPath c
        (some (match parentDir with
               | none => sectionPath ++ [sanitize_filename t]
               | some d => d)))).flatten

/-- The filesystem effects of one `process_page` call that are fixed by the
task alone: the Markdown file path, the images directory, and the
directories created. -/
structure PagePaths where
  markdownPath : List String
  imagesDir : List String
  madeDirs : List (List String)

/-- The path logic of `process_page`: a child page writes into the parent
directory; a top-level page with children creates a directory named after
its sanitized title and writes its file as a sibling; a childless top-level
page writes directly into the section directory; the images directory is
always the section-level `images/`. -/
def processPagePaths (outputPath : List String) (title : String)
    (hasChildren : Bool) (parentDir : Option (List String)) : PagePaths :=
  match parentDir with
  | some d =>
    { markdownPath := d ++ [sanitize_filename title ++ ".md"]
      imagesDir := outputPath ++ ["images"]
      madeDirs := [d, outputPath ++ ["images"], d] }
  | none =>
    if hasChildren then
      { markdownPath := outputPath ++ [sanitize_filename title ++ ".md"]
        imagesDir := outputPath ++ ["images"]
        madeDirs := [outputPath ++ [sanitize_filename title],
          outputPath ++ ["images"], outputPath] }
    else
      { markdownPath := outputPath ++ [sanitize_filename title ++ ".md"]
        imagesDir := outputPath ++ ["images"]
        madeDirs := [outputPath ++ ["images"], outputPath] }

/-- Markdown paths produced for a top-level page and its descendants. -/
def actualMdPaths (sectionPath : List String) (p : PgTree) :
    List (List String) :=
  (collectPages sectionPath p none).map
    (fun task => (processPagePaths sectionPath task.1.title
      (!task.1.children.isEmpty) task.2).markdownPath)

/-- The Markdown paths the claimed layout invariant would dictate: every
page with children (at any depth) owns a directory named after its sanitized
title, its own file is a sibling of that directory, and each child's file
lies directly in its parent's directory. -/
def claimedMdPaths (home : List String) : PgTree → List (List String)
  | .node t cs =>
    (home ++ [sanitize_filename t ++ ".md"]) ::
      (cs.attach.map (fun ⟨c, _⟩ =>
        claimedMdPaths (home ++ [sanitize_filename t]) c)).flatten

theorem collectPages_node_none (sectionPath : List String) (t : String)
    (cs : List PgTree) :
    collectPages sectionPath (.node t cs) none =
      (.node t cs, none) ::
        (cs.map (fun c => collectPages sectionPath c
          (some (sectionPath ++ [sanitize_filename t])))).flatten := by
  rw [collectPages]
  congr 2
  rw [List.map_attach]
  exact List.pmap_eq_map _ _ _ _

theorem collectPages_node_some (sectionPath : List String) (t : String)
    (cs : List PgTree) (d : List String) :
    collectPages sectionPath (.node t cs) (some d) =
      (.node t cs, some d) ::
        (cs.map (fun c => collectPages sectionPath c (some d))).flatten := by
  rw [collectPages]
  congr 2
  rw [List.map_attach]
  exact List.pmap_eq_map _ _ _ _

theorem claimedMdPaths_node (home : List String) (t : String)
    (cs : List PgTree) :
    claimedMdPaths home (.node t cs) =
      (home ++ [sanitize_filename t ++ ".md"]) ::
        (cs.map (claimedMdPaths (home ++ [sanitize_filename t]))).flatten := by
  rw [claimedMdPaths]
  simp only [List.attach_map_coe]

theorem imagesDir_eq (o : List String) (t : String) (hc : Bool)
    (pd : Option (List String)) :
    (processPagePaths o t hc pd).imagesDir = o ++ ["images"] := by
  cases pd with
  | none => cases hc <;> rfl
  | some d => rfl

theorem collectPages_snd_some (sectionPath : List String) :
    ∀ (p : PgTree) (pd : Option (List String)) (d : List String), pd = some d →
    ∀ task ∈ collectPages sectionPath p pd, task.2 = some d := by
  intro p pd
  refine collectPages.induct sectionPath
    (fun p pd => ∀ d, pd = some d →
      ∀ task ∈ collectPages sectionPath p pd, task.2 = some d) ?_ p pd
  intro t cs pd' ih d hpd task htask
  subst hpd
  rw [collectPages_node_some] at htask
  rcases List.mem_cons.mp htask with rfl | h'
  · rfl
  · obtain ⟨s, hs, hts⟩ := List.mem_flatten.mp h'
    obtain ⟨c, hc, hcs⟩ := List.mem_map.mp hs
    exact ih c hc d rfl task (hcs ▸ hts)

/-- The deep example: page A has child B, which itself has child C. -/
def deepTree : PgTree := .node "A" [.node "B" [.node "C" []]]

/-- C3 counterexample: for the three-level tree A → B → C, page B has
children but owns no directory — C's Markdown file is written into A's
directory (`sec/A/C.md`), not into a `B/` directory (`sec/A/B/C.md`) as the
claimed invariant requires, so the invariant fails at nesting depth ≥ 2. -/
theorem C3_counterexample :
    actualMdPaths ["sec"] deepTree =
      [["sec", "A.md"], ["sec", "A", "B.md"], ["sec", "A", "C.md"]] ∧
    claimedMdPaths ["sec"] deepTree =
      [["sec", "A.md"], ["sec", "A", "B.md"], ["sec", "A", "B", "C.md"]] ∧
    actualMdPaths ["sec"] deepTree ≠ claimedMdPaths ["sec"] deepTree := by
  have h1 : actualMdPaths ["sec"] deepTree =
      [["sec", "A.md"], ["sec", "A", "B.md"], ["sec", "A", "C.md"]] := by
    unfold actualMdPaths deepTree
    simp only [collectPages_node_none, collectPages_node_some, List.map_cons,
      List.map_nil, List.flatten_cons, List.flatten_nil]
    decide
  have h2 : claimedMdPaths ["sec"] deepTree =
      [["sec", "A.md"], ["sec", "A", "B.md"], ["sec", "A", "B", "C.md"]] := by
    unfold deepTree
    simp only [claimedMdPaths_node, List.map_cons, List.map_nil,
      List.flatten_cons, List.flatten_nil]
    decide
  refine ⟨h1, h2, ?_⟩
  rw [h1, h2]
  decide

/-- C3 (amended): each section has exactly one `images/` directory shared by
every page task; a *top-level* page writes its Markdown file directly in the
section directory and, when it has children, owns a directory named after
its sanitized title (its own file being a sibling of that directory); and
every strict descendant of a top-level page — at *every* depth, not just
depth one — writes its Markdown file directly into that top-level page's
directory.  Nested pages never own directories of their own. -/
theorem C3_directory_layout (sectionPath : List String) (p : PgTree) :
    (∀ task ∈ collectPages sectionPath p none,
      (processPagePaths sectionPath task.1.title (!task.1.children.isEmpty)
        task.2).imagesDir = sectionPath ++ ["images"]) ∧
    (processPagePaths sectionPath p.title (!p.children.isEmpty)
      none).markdownPath = sectionPath ++ [sanitize_filename p.title ++ ".md"] ∧
    (p.children ≠ [] →
      sectionPath ++ [sanitize_filename p.title] ∈
        (processPagePaths sectionPath p.title (!p.children.isEmpty)
          none).madeDirs) ∧
    (∀ task ∈ (collectPages sectionPath p none).tail,
      task.2 = some (sectionPath ++ [sanitize_filename p.title]) ∧
      (processPagePaths sectionPath task.1.title (!task.1.children.isEmpty)
        task.2).markdownPath =
        sectionPath ++ [sanitize_filename p.title,
          sanitize_filename task.1.title ++ ".md"]) := by
  obtain ⟨t, cs⟩ := p
  refine ⟨?_, ?_, ?_, ?_⟩
  · intro task _
    exact imagesDir_eq sectionPath task.1.title _ task.2
  · show (processPagePaths sectionPath t (!cs.isEmpty) none).markdownPath = _
    cases cs.isEmpty <;> rfl
  · intro hcs
    show sectionPath ++ [sanitize_filename t] ∈
      (processPagePaths sectionPath t (!cs.isEmpty) none).madeDirs
    have : cs.isEmpty = false := by
      cases cs
      · exact absurd rfl hcs
      · rfl
    rw [this]
    show sectionPath ++ [sanitize_filename t] ∈
      [sectionPath ++ [sanitize_filename t], sectionPath ++ ["images"],
        sectionPath]
    simp
  · intro task htask
    rw [collectPages_node_none] at htask
    simp only [List.tail_cons] at htask
    obtain ⟨s, hs, hts⟩ := List.mem_flatten.mp htask
    obtain ⟨c, hc, hcs⟩ := List.mem_map.mp hs
    have hsnd : task.2 = some (sectionPath ++ [sanitize_filename t]) :=
      collectPages_snd_some sectionPath c _ _ rfl task (hcs ▸ hts)
    refine ⟨hsnd, ?_⟩
    rw [hsnd]
    show (sectionPath ++ [sanitize_filename t]) ++
        [sanitize_filename task.1.title ++ ".md"] = _
    rw [List.append_assoc]
    rfl

/-- Witness for C3's amended theorem at the deep example tree. -/
theorem C3_directory_layout_witness :
    (processPagePaths ["sec"] deepTree.title (!deepTree.children.isEmpty)
      none).markdownPath =
      ["sec"] ++ [sanitize_filename deepTree.title ++ ".md"] :=
  (C3_directory_layout ["sec"] deepTree).2.1

/-! ### Batch orchestration (`download_and_convert`, lines 613-638) -/

/-- A page as dispatched to a worker: id and title. -/
structure BatchPage where
  id : String
  title : String

/-- One conversion task of the batch. -/
structure ConvTask where
  page : BatchPage
  hasChildren : Bool
  parentDir : Option (List String)

/-- One `process_page` execution: fetch the page content (may fail),
convert (the normalization/rendering pipeline is an explicit function), and
produce the Markdown file `# {title}\n\n{body}` at the task's path.  Any
failure is surfaced as `Except.error` — in the source, as a raised
exception. -/
def processPageRun (fetch : String → Except String String)
    (render : String → String) (outputPath : List String)
    (task : ConvTask) : Except String (List String × String) :=
  match fetch task.page.id with
  | .error e => .error e
  | .ok html =>
    .ok ((processPagePaths outputPath task.page.title task.hasChildren
        task.parentDir).markdownPath,
      "# " ++ task.page.title ++ "\n\n" ++ render html)

/-- The result-collection loop of `download_and_convert`: walk the futures
in submission order; a success contributes its written file, an exception is
caught at the task boundary and recorded as `(page title, error message)`;
processing always continues with the remaining pages. -/
def runBatch (fetch : String → Except String String)
    (render : String → String) (outputPath : List String) :
    List ConvTask → List (List String × String) × List (String × String)
  | [] => ([], [])
  | t :: ts =>
    match processPageRun fetch render outputPath t with
    | .ok f =>
      ((f :: (runBatch fetch render outputPath ts).1),
        (runBatch fetch render outputPath ts).2)
    | .error e =>
      ((runBatch fetch render outputPath ts).1,
        ((t.page.title, e) :: (runBatch fetch render outputPath ts).2))

/-- A childless top-level page task. -/
def mkTask (i t : String) : ConvTask := ⟨⟨i, t⟩, false, none⟩

/-- The spec's partial-failure scenario: five pages. -/
def fivePages : List ConvTask :=
  [mkTask "1" "Page 1", mkTask "2" "Page 2", mkTask "3" "Page 3",
   mkTask "4" "Page 4", mkTask "5" "Page 5"]

/-- A fetcher that always errors on page 3's content. -/
def fetchFail3 : String → Except String String :=
  fun i => if i = "3" then .error "content fetch failed" else .ok "<html/>"

/-- C4: a page failure is caught at the task boundary, recorded as
`(title, error)`, and never aborts the batch: the written files are exactly
the successful tasks' files (in order), the failure list is exactly the
failing tasks' `(title, message)` pairs (in order), and every task reaches
one of the two outcomes.  In the spec's concrete scenario — five pages with
page 3's content fetch always failing — four Markdown files are written and
exactly one named failure is reported. -/
theorem C4_partial_failure_isolation (fetch : String → Except String String)
    (render : String → String) (outputPath : List String)
    (tasks : List ConvTask) :
    (runBatch fetch render outputPath tasks).1 =
      tasks.filterMap
        (fun t => (processPageRun fetch render outputPath t).toOption) ∧
    (runBatch fetch render outputPath tasks).2 =
      tasks.filterMap (fun t =>
        match processPageRun fetch render outputPath t with
        | .error e => some (t.page.title, e)
        | .ok _ => none) ∧
    (runBatch fetch render outputPath tasks).1.length +
      (runBatch fetch render outputPath tasks).2.length = tasks.length ∧
    (runBatch fetchFail3 (fun s => s) ["sec"] fivePages).1.length = 4 ∧
    (runBatch fetchFail3 (fun s => s) ["sec"] fivePages).2 =
      [("Page 3", "content fetch failed")] := by
  refine ⟨?_, ?_, ?_, by decide, by decide⟩
  · induction tasks with
    | nil => rfl
    | cons t ts ih =>
      cases h : processPageRun fetch render outputPath t with
      | ok f =>
        simp only [runBatch, List.filterMap_cons, h, Except.toOption]
        rw [ih]
        rfl
      | error e =>
        simp only [runBatch, List.filterMap_cons, h, Except.toOption]
        rw [ih]
        rfl
  · induction tasks with
    | nil => rfl
    | cons t ts ih =>
      cases h : processPageRun fetch render outputPath t with
      | ok f =>
        simp only [runBatch, List.filterMap_cons, h]
        rw [ih]
      | error e =>
        simp only [runBatch, List.filterMap_cons, h]
        rw [ih]
  · induction tasks with
    | nil => rfl
    | cons t ts ih =>
      cases h : processPageRun fetch render outputPath t with
      | ok f =>
        simp only [runBatch, h, List.length_cons]
        omega
      | error e =>
        simp only [runBatch, h, List.length_cons]
        omega

end OneNote
